import Mathlib

/-!
Verification of syncpoint: a two-phase N-party rendezvous (src/syncpoint.c)

The development has two embeddings of the same source file.

* A *concurrent* embedding: the shared fields of `syncpoint_cfg_t`, one program
  counter per thread, and one transition per shared-memory access or pthread
  call of `syncpoint_wait`, `syncpoint_wait_all_stopped` and `syncpoint_cont`.
  Threads interleave under sequential consistency.  In this embedding every
  pthread call succeeds; the error branches are the subject of the second
  embedding.
  - A mutex is a field holding its owner; `pthread_mutex_lock` is enabled only
    when the field is empty.
  - `pthread_cond_wait` releases the mutex and blocks; a broadcast (or a
    spurious wake-up) makes the thread ready to re-acquire the mutex.
  - `pthread_barrier_wait` blocks until the configured number of threads is
    inside the barrier; the arrival that completes the count releases all of
    them.
  - The counters are `uint32_t`: increments are taken modulo `2^32`.
  - Cycle numbers are history variables kept beside the state (`Traced`): how
    often each worker has executed l.185 and how often the manager has executed
    l.107.  The program never reads them.
* A *sequential* embedding of each operation as a function of the return codes
  the pthread calls hand back, recording the calls and the writes it performs.

Layout: definitions first (both embeddings, the invariants, the schedules), then
the lemmas and the theorems.
-/

namespace Syncpoint

/-! ## Concurrent embedding: data -/

/-- Wrap-around modulus of the `uint32_t` counters. -/
def UINT32_MOD : Nat := 4294967296

/-- Thread identities: the manager, worker number `i`, observer number `j`. -/
inductive Tid where
  | manager
  | worker (i : Nat)
  | observer (j : Nat)
deriving DecidableEq, Repr

/-- Program counter of a worker thread, named after the line of `syncpoint_wait`
it is about to execute (or is blocked in). -/
inductive WPc where
  /-- outside `syncpoint_wait`; next: `pthread_mutex_lock` of l.179 -/
  | idle
  /-- holds `worker_wait.sync.m`; next: `nb_workers_ingress++` (l.185) -/
  | inc
  /-- next: the test `nb_workers_ingress == nb_workers` (l.186) -/
  | cmp
  /-- next: `ingress_completed = true` (l.187) -/
  | setflag
  /-- next: `pthread_cond_broadcast(&client_worker_wait.c)` (l.188) -/
  | bcast
  /-- next: the test of `while(nb_workers_ingress)` (l.196) -/
  | loop
  /-- inside `pthread_cond_wait` (l.197): mutex released, not yet signalled -/
  | blocked
  /-- inside `pthread_cond_wait` (l.197): woken, re-acquiring the mutex -/
  | woken
  /-- next: `nb_workers_egress++` (l.203) -/
  | einc
  /-- next: the test `nb_workers_egress == nb_workers` (l.206) -/
  | ecmp
  /-- blocked in `pthread_barrier_wait(&continue_done)` (l.208) -/
  | cdwait
  /-- next: `pthread_mutex_unlock` (l.215) -/
  | unlock
  /-- next: `pthread_barrier_wait(&egress_sync)` (l.221) -/
  | esenter
  /-- blocked in `pthread_barrier_wait(&egress_sync)` (l.221) -/
  | eswait
deriving DecidableEq, Repr

/-- Program counter of an observer thread inside `syncpoint_wait_all_stopped`. -/
inductive OPc where
  /-- outside the call; next: `pthread_mutex_lock(&client_worker_wait.m)` (l.140) -/
  | idle
  /-- holds `client_worker_wait.m`; next: the test of `while(!ingress_completed)` (l.146) -/
  | test
  /-- has read `ingress_completed == false`; next: the call of `pthread_cond_wait`
  (l.147), which releases the mutex and blocks -/
  | towait
  /-- inside `pthread_cond_wait` (l.147): mutex released, not yet signalled -/
  | blocked
  /-- inside `pthread_cond_wait` (l.147): woken, re-acquiring the mutex -/
  | woken
  /-- has left the loop; next: `pthread_mutex_unlock` (l.154) -/
  | unlock
deriving DecidableEq, Repr

/-- Program counter of the manager thread.  The first five non-idle states are
the body of `syncpoint_wait_all_stopped`; the flag says whether it was entered
from `syncpoint_cont` (l.95) or called directly. -/
inductive MPc where
  | idle
  /-- l.146, holds `client_worker_wait.m` -/
  | wtest (cont : Bool)
  /-- l.147, has read `ingress_completed == false`, about to call `pthread_cond_wait` -/
  | wtowait (cont : Bool)
  /-- l.147, blocked -/
  | wblocked (cont : Bool)
  /-- l.147, woken -/
  | wwoken (cont : Bool)
  /-- l.154 -/
  | wunlock (cont : Bool)
  /-- next: `pthread_mutex_lock(&worker_wait.sync.m)` (l.101) -/
  | lock
  /-- next: `nb_workers_ingress = 0` (l.107) -/
  | reset_ingress
  /-- next: `ingress_completed = false` (l.108) -/
  | reset_completed
  /-- next: `pthread_cond_broadcast(&worker_wait.sync.c)` (l.110) -/
  | bcast
  /-- next: `pthread_mutex_unlock` (l.116) -/
  | unlock
  /-- next: `pthread_barrier_wait(&continue_done)` (l.124) -/
  | cdenter
  /-- blocked in `pthread_barrier_wait(&continue_done)` (l.124) -/
  | cdwait
  /-- next: `nb_workers_egress = 0` (l.130) -/
  | reset_egress
deriving DecidableEq, Repr

/-- The shared object `syncpoint_cfg_t` together with the threads using it.
The two barriers keep no field of their own: the number of threads waiting in a
barrier is the number of threads whose program counter is blocked in it. -/
structure State where
  /-- Field `nb_workers` -/
  nb_workers : Nat
  /-- Field `worker_wait.nb_workers_ingress` -/
  nb_workers_ingress : Nat
  /-- Field `worker_wait.nb_workers_egress` -/
  nb_workers_egress : Nat
  /-- Field `worker_wait.ingress_completed` -/
  ingress_completed : Bool
  /-- owner of `worker_wait.sync.m` (the primary mutex) -/
  worker_m : Option Tid
  /-- owner of `client_worker_wait.m` (the secondary mutex) -/
  client_m : Option Tid
  mgr : MPc
  workers : List WPc
  observers : List OPc
  /-- history variable: calls of `pthread_barrier_wait(&continue_done)` made by
  workers since the last execution of l.130; never read by the program -/
  cycle_cd_worker : Nat
  /-- history variable: the same, for the manager (l.124) -/
  cycle_cd_manager : Nat
  /-- history variable: evaluations of l.206 that came out false since the last
  execution of l.130 -/
  cycle_skipped : Nat
deriving DecidableEq, Repr

/-- Atomic steps of the system. -/
inductive Label where
  /-- worker `i` executes its next statement -/
  | worker (i : Nat)
  /-- worker `i` wakes up spuriously inside `pthread_cond_wait` -/
  | worker_spurious (i : Nat)
  /-- observer `j` executes its next statement (from idle: enters
  `syncpoint_wait_all_stopped`) -/
  | observer (j : Nat)
  /-- observer `j` wakes up spuriously inside `pthread_cond_wait` -/
  | observer_spurious (j : Nat)
  /-- the manager calls `syncpoint_wait_all_stopped` -/
  | call_wait_all_stopped
  /-- the manager calls `syncpoint_cont` -/
  | call_cont
  /-- the manager executes its next statement -/
  | manager
  /-- the manager wakes up spuriously inside `pthread_cond_wait` -/
  | manager_spurious
deriving DecidableEq, Repr

/-! ## Concurrent embedding: operations -/

/-- State of the shared object right after `syncpoint_init(nb_workers)` (l.69-78),
with `nobs` observer threads, all threads outside their calls. -/
def syncpoint_init (nb_workers nobs : Nat) : State :=
  { nb_workers := nb_workers
    nb_workers_ingress := 0
    nb_workers_egress := 0
    ingress_completed := false
    worker_m := none
    client_m := none
    mgr := .idle
    workers := List.replicate nb_workers .idle
    observers := List.replicate nobs .idle
    cycle_cd_worker := 0
    cycle_cd_manager := 0
    cycle_skipped := 0 }

/-- Function `syncpoint_wait_count` (l.165-168): an unlocked read of the ingress counter. -/
def syncpoint_wait_count (s : State) : Nat :=
  s.nb_workers_ingress

/-- Effect of `pthread_cond_broadcast(&worker_wait.sync.c)` on one worker. -/
def wake_worker : WPc → WPc
  | .blocked => .woken
  | p => p

/-- Effect of `pthread_cond_broadcast(&client_worker_wait.c)` on one observer. -/
def wake_observer : OPc → OPc
  | .blocked => .woken
  | p => p

/-- Effect of `pthread_cond_broadcast(&client_worker_wait.c)` on the manager. -/
def wake_manager : MPc → MPc
  | .wblocked c => .wwoken c
  | p => p

/-- A worker blocked in `continue_done` leaves the barrier. -/
def cd_release : WPc → WPc
  | .cdwait => .unlock
  | p => p

/-- A worker blocked in `egress_sync` leaves the barrier and returns `true`. -/
def es_release : WPc → WPc
  | .eswait => .idle
  | p => p

/-- Number of threads currently blocked in `continue_done`. -/
def cd_waiting (s : State) : Nat :=
  (if s.mgr = .cdwait then 1 else 0) + s.workers.count .cdwait

/-- Number of threads currently blocked in `egress_sync`. -/
def es_waiting (s : State) : Nat :=
  s.workers.count .eswait

/-- One atomic step of worker `i` inside `syncpoint_wait` (l.174-228).
`none`: the step is not enabled (the thread is blocked). -/
def syncpoint_wait_step (s : State) (i : Nat) : Option State :=
  match s.workers[i]? with
  | none => none
  | some .idle =>
    if s.worker_m = none then
      some { s with worker_m := some (.worker i), workers := s.workers.set i .inc }
    else none
  | some .inc =>
    some { s with nb_workers_ingress := (s.nb_workers_ingress + 1) % UINT32_MOD,
                  workers := s.workers.set i .cmp }
  | some .cmp =>
    if s.nb_workers_ingress = s.nb_workers then
      some { s with workers := s.workers.set i .setflag }
    else
      some { s with workers := s.workers.set i .loop }
  | some .setflag =>
    some { s with ingress_completed := true, workers := s.workers.set i .bcast }
  | some .bcast =>
    some { s with observers := s.observers.map wake_observer,
                  mgr := wake_manager s.mgr,
                  workers := s.workers.set i .loop }
  | some .loop =>
    if s.nb_workers_ingress ≠ 0 then
      some { s with worker_m := none, workers := s.workers.set i .blocked }
    else
      some { s with workers := s.workers.set i .einc }
  | some .blocked => none
  | some .woken =>
    if s.worker_m = none then
      some { s with worker_m := some (.worker i), workers := s.workers.set i .loop }
    else none
  | some .einc =>
    some { s with nb_workers_egress := (s.nb_workers_egress + 1) % UINT32_MOD,
                  workers := s.workers.set i .ecmp }
  | some .ecmp =>
    if s.nb_workers_egress = s.nb_workers then
      if cd_waiting s + 1 = 2 then
        some { s with mgr := (if s.mgr = .cdwait then .reset_egress else s.mgr),
                      workers := (s.workers.set i .unlock).map cd_release,
                      cycle_cd_worker := s.cycle_cd_worker + 1 }
      else
        some { s with workers := s.workers.set i .cdwait,
                      cycle_cd_worker := s.cycle_cd_worker + 1 }
    else
      some { s with workers := s.workers.set i .unlock,
                    cycle_skipped := s.cycle_skipped + 1 }
  | some .cdwait => none
  | some .unlock =>
    some { s with worker_m := none, workers := s.workers.set i .esenter }
  | some .esenter =>
    if es_waiting s + 1 = s.nb_workers then
      some { s with workers := (s.workers.set i .idle).map es_release }
    else
      some { s with workers := s.workers.set i .eswait }
  | some .eswait => none

/-- One atomic step of observer `j` inside `syncpoint_wait_all_stopped`
(l.135-163). -/
def syncpoint_wait_all_stopped_step (s : State) (j : Nat) : Option State :=
  match s.observers[j]? with
  | none => none
  | some .idle =>
    if s.client_m = none then
      some { s with client_m := some (.observer j), observers := s.observers.set j .test }
    else none
  | some .test =>
    if s.ingress_completed = false then
      some { s with observers := s.observers.set j .towait }
    else
      some { s with observers := s.observers.set j .unlock }
  | some .towait =>
    some { s with client_m := none, observers := s.observers.set j .blocked }
  | some .blocked => none
  | some .woken =>
    if s.client_m = none then
      some { s with client_m := some (.observer j), observers := s.observers.set j .test }
    else none
  | some .unlock =>
    some { s with client_m := none, observers := s.observers.set j .idle }

/-- One atomic step of the manager inside `syncpoint_wait_all_stopped` or
`syncpoint_cont` (l.89-133). -/
def syncpoint_cont_step (s : State) : Option State :=
  match s.mgr with
  | .idle => none
  | .wtest c =>
    if s.ingress_completed = false then
      some { s with mgr := .wtowait c }
    else
      some { s with mgr := .wunlock c }
  | .wtowait c =>
    some { s with client_m := none, mgr := .wblocked c }
  | .wblocked _ => none
  | .wwoken c =>
    if s.client_m = none then
      some { s with client_m := some .manager, mgr := .wtest c }
    else none
  | .wunlock c =>
    some { s with client_m := none, mgr := (if c then .lock else .idle) }
  | .lock =>
    if s.worker_m = none then
      some { s with worker_m := some .manager, mgr := .reset_ingress }
    else none
  | .reset_ingress =>
    some { s with nb_workers_ingress := 0, mgr := .reset_completed }
  | .reset_completed =>
    some { s with ingress_completed := false, mgr := .bcast }
  | .bcast =>
    some { s with workers := s.workers.map wake_worker, mgr := .unlock }
  | .unlock =>
    some { s with worker_m := none, mgr := .cdenter }
  | .cdenter =>
    if cd_waiting s + 1 = 2 then
      some { s with mgr := .reset_egress,
                    workers := s.workers.map cd_release,
                    cycle_cd_manager := s.cycle_cd_manager + 1 }
    else
      some { s with mgr := .cdwait, cycle_cd_manager := s.cycle_cd_manager + 1 }
  | .cdwait => none
  | .reset_egress =>
    some { s with nb_workers_egress := 0, mgr := .idle,
                  cycle_cd_worker := 0, cycle_cd_manager := 0, cycle_skipped := 0 }

/-- The manager enters `syncpoint_wait_all_stopped` (directly, or as the first
statement of `syncpoint_cont`): `pthread_mutex_lock` of l.140. -/
def manager_call (s : State) (cont : Bool) : Option State :=
  if s.mgr = .idle ∧ s.client_m = none then
    some { s with client_m := some .manager, mgr := .wtest cont }
  else none

/-- The transition function of the whole system. -/
def step (s : State) : Label → Option State
  | .worker i => syncpoint_wait_step s i
  | .worker_spurious i =>
    if s.workers[i]? = some .blocked then
      some { s with workers := s.workers.set i .woken }
    else none
  | .observer j => syncpoint_wait_all_stopped_step s j
  | .observer_spurious j =>
    if s.observers[j]? = some .blocked then
      some { s with observers := s.observers.set j .woken }
    else none
  | .call_wait_all_stopped => manager_call s false
  | .call_cont => manager_call s true
  | .manager => syncpoint_cont_step s
  | .manager_spurious =>
    match s.mgr with
    | .wblocked c => some { s with mgr := .wwoken c }
    | _ => none

/-- Run a schedule; `none` if some step of it is not enabled. -/
def run (s : State) : List Label → Option State
  | [] => some s
  | l :: ls => (step s l).bind (fun t => run t ls)

/-- States reachable from `syncpoint_init nb_workers nobs`. -/
inductive Reachable (nb_workers nobs : Nat) : State → Prop where
  | init : Reachable nb_workers nobs (syncpoint_init nb_workers nobs)
  | step (s t : State) (l : Label) :
      Reachable nb_workers nobs s → step s l = some t → Reachable nb_workers nobs t

end Syncpoint

namespace Syncpoint

/-! ## Invariants of the concurrent embedding -/

/-- Number of workers whose program counter is `c`. -/
def cnt (s : State) (c : WPc) : Nat :=
  s.workers.count c

/-- Program points of `syncpoint_wait` between `pthread_mutex_lock` (l.179) or the
return of `pthread_cond_wait` (l.197) and the next release of `worker_wait.sync.m`. -/
def heldW : WPc → Bool
  | .inc | .cmp | .setflag | .bcast | .loop | .einc | .ecmp | .cdwait | .unlock => true
  | _ => false

/-- Program points of `syncpoint_cont` between l.101 and l.116. -/
def heldM : MPc → Bool
  | .reset_ingress | .reset_completed | .bcast | .unlock => true
  | _ => false

/-- Program points of an observer at which it owns `client_worker_wait.m`. -/
def heldO : OPc → Bool
  | .test | .towait | .unlock => true
  | _ => false

/-- Program points of the manager at which it owns `client_worker_wait.m`. -/
def heldMC : MPc → Bool
  | .wtest _ | .wtowait _ | .wunlock _ => true
  | _ => false

/-- Number of workers at a program point inside the primary critical section. -/
def holders (s : State) : Nat :=
  cnt s .inc + cnt s .cmp + cnt s .setflag + cnt s .bcast + cnt s .loop +
  cnt s .einc + cnt s .ecmp + cnt s .cdwait + cnt s .unlock

/-- One when the owner is a worker, else zero. -/
def wOwned : Option Tid → Nat
  | some (.worker _) => 1
  | _ => 0

/-- Whether the owner is the manager. -/
def mOwned : Option Tid → Bool
  | some .manager => true
  | _ => false

/-- Whether worker `i` is at a program point inside the primary critical section. -/
def holdsW (s : State) (i : Nat) : Bool :=
  match s.workers[i]? with
  | some pc => heldW pc
  | none => false

/-- Whether observer `j` is at a program point where it owns the secondary mutex. -/
def holdsO (s : State) (j : Nat) : Bool :=
  match s.observers[j]? with
  | some pc => heldO pc
  | none => false

/-- The thread population is the one `syncpoint_init` was called for. -/
structure Shape (N K : Nat) (s : State) : Prop where
  nb : s.nb_workers = N
  wlen : s.workers.length = N
  olen : s.observers.length = K

/-- Counting form of mutual exclusion on `worker_wait.sync.m`. -/
structure LockCount (s : State) : Prop where
  workers : holders s = wOwned s.worker_m
  manager : heldM s.mgr = mOwned s.worker_m

/-- The owner fields name exactly the thread that is inside the critical section. -/
structure Owners (s : State) : Prop where
  w_worker : ∀ i, s.worker_m = some (.worker i) ↔ holdsW s i = true
  w_manager : s.worker_m = some .manager ↔ heldM s.mgr = true
  w_observer : ∀ j, s.worker_m ≠ some (.observer j)
  c_observer : ∀ j, s.client_m = some (.observer j) ↔ holdsO s j = true
  c_manager : s.client_m = some .manager ↔ heldMC s.mgr = true
  c_worker : ∀ i, s.client_m ≠ some (.worker i)

/-- Coarse position of the manager in the cycle. -/
inductive Phase where
  /-- At `idle`, or inside the wait loop of `syncpoint_wait_all_stopped` -/
  | gather
  /-- the manager has read `ingress_completed == true` and not yet reset anything -/
  | sealed
  /-- between l.107 and l.108 -/
  | midreset
  /-- after l.108, before blocking in `continue_done` -/
  | release
  /-- blocked in `continue_done` -/
  | drain
  /-- past `continue_done`, before l.130 -/
  | finish
deriving DecidableEq, Repr

/-- Phase of a manager program counter. -/
def phase : MPc → Phase
  | .idle | .wtest _ | .wtowait _ | .wblocked _ | .wwoken _ => .gather
  | .wunlock _ | .lock | .reset_ingress => .sealed
  | .reset_completed => .midreset
  | .bcast | .unlock | .cdenter => .release
  | .cdwait => .drain
  | .reset_egress => .finish

/-- Workers that have incremented the ingress counter, have published the flag
decision, and have not left the arrival wait. -/
def arrived (s : State) : Nat :=
  cnt s .bcast + cnt s .loop + cnt s .blocked + cnt s .woken

/-- Workers past l.206 that have not left `egress_sync`. -/
def leaving (s : State) : Nat :=
  cnt s .unlock + cnt s .esenter + cnt s .eswait

/-- What holds while the manager has not started resetting (arrival side). -/
structure PreInv (s : State) : Prop where
  no_einc : cnt s .einc = 0
  no_ecmp : cnt s .ecmp = 0
  no_cdwait : cnt s .cdwait = 0
  ingress : s.nb_workers_ingress = cnt s .cmp + cnt s .setflag + arrived s
  leave : leaving s = 0 ∨ leaving s = s.nb_workers
  flag_on : s.ingress_completed = true → arrived s = s.nb_workers
  flag_off : s.ingress_completed = false → arrived s ≠ s.nb_workers
  setflag : 0 < cnt s .setflag → s.nb_workers_ingress = s.nb_workers

/-- What holds between l.107 and l.108. -/
structure MidInv (s : State) : Prop where
  ingress : s.nb_workers_ingress = 0
  flag : s.ingress_completed = true
  waiting : cnt s .blocked + cnt s .woken = s.nb_workers
  egress : s.nb_workers_egress = 0
  g_worker : s.cycle_cd_worker = 0
  g_manager : s.cycle_cd_manager = 0
  g_skipped : s.cycle_skipped = 0

/-- What holds after l.108 until the manager leaves `continue_done` (departure side). -/
structure PostInv (s : State) : Prop where
  ingress : s.nb_workers_ingress = 0
  flag : s.ingress_completed = false
  no_idle : cnt s .idle = 0
  no_inc : cnt s .inc = 0
  no_cmp : cnt s .cmp = 0
  no_setflag : cnt s .setflag = 0
  no_bcast : cnt s .bcast = 0
  egress : s.nb_workers_egress = cnt s .ecmp + cnt s .cdwait + leaving s
  last : 0 < cnt s .cdwait → s.nb_workers_egress = s.nb_workers
  notlast : cnt s .ecmp + cnt s .cdwait = 0 → s.nb_workers_egress < s.nb_workers
  g_worker : s.cycle_cd_worker = cnt s .cdwait
  g_skipped : s.cycle_skipped = leaving s

/-- The history variables are zero. -/
structure Ghost0 (s : State) : Prop where
  g_worker : s.cycle_cd_worker = 0
  g_manager : s.cycle_cd_manager = 0
  g_skipped : s.cycle_skipped = 0

/-- The phase invariant of the rendezvous. -/
def PhaseInv (s : State) : Prop :=
  match phase s.mgr with
  | .gather => PreInv s ∧ s.nb_workers_egress = 0 ∧ Ghost0 s
  | .sealed => PreInv s ∧ s.nb_workers_egress = 0 ∧ Ghost0 s ∧ s.ingress_completed = true
  | .midreset => MidInv s
  | .release => PostInv s ∧ s.cycle_cd_manager = 0
  | .drain => PostInv s ∧ s.cycle_cd_manager = 1 ∧ cnt s .cdwait = 0
  | .finish => PreInv s ∧ s.nb_workers_egress = s.nb_workers ∧
      s.cycle_cd_worker = 1 ∧ s.cycle_cd_manager = 1 ∧ s.cycle_skipped + 1 = s.nb_workers

end Syncpoint

namespace Syncpoint

/-! ## Vocabulary of the claims about the concurrent embedding -/

/-- Everything that is proved to hold in every reachable state. -/
structure Inv (N K : Nat) (s : State) : Prop where
  shape : Shape N K s
  lock : LockCount s
  owners : Owners s
  phase : PhaseInv s

/-- The primary mutex is owned by a thread that has done the first of the two
writes of an update of `nb_workers_ingress` / `ingress_completed` and not yet
the second: a worker between l.185 and l.187, or the manager between l.107 and
l.108. -/
def mid_update (s : State) : Bool :=
  match s.worker_m with
  | some .manager => decide (s.mgr = .reset_completed)
  | some (.worker i) =>
    decide (s.workers[i]? = some .cmp) || decide (s.workers[i]? = some .setflag)
  | _ => false

/-- The step `l` from `s` to `t` is a thread leaving the loop of l.146 of
`syncpoint_wait_all_stopped` (the test came out false): an observer, or the
manager in its own call of that function. -/
def leaves_wait_loop (s t : State) : Label → Bool
  | .observer j =>
    decide (s.observers[j]? = some .test) && decide (t.observers[j]? = some .unlock)
  | .manager =>
    match s.mgr, t.mgr with
    | .wtest c, .wunlock d => decide (c = d)
    | _, _ => false
  | _ => false

/-- Program points of a worker that has executed `nb_workers_ingress++` (l.185)
and the statements up to l.193 in the current cycle and has not left the loop
of l.196. -/
def arrivedPc : WPc → Bool
  | .bcast | .loop | .blocked | .woken => true
  | _ => false

/-- Every worker has performed its ingress increment of the current cycle and
is still inside the arrival wait. -/
def all_arrived (s : State) : Bool :=
  s.workers.all arrivedPc

/-- Program points of a worker that has left the loop of l.196 and has not yet
left the exit barrier `egress_sync` (l.221). -/
def past_wait_loop : WPc → Bool
  | .einc | .ecmp | .cdwait | .unlock | .esenter | .eswait => true
  | _ => false

/-- Program points of a worker after l.206 (so after its `nb_workers_egress++`)
and before leaving `egress_sync`. -/
def leavingPc : WPc → Bool
  | .unlock | .esenter | .eswait => true
  | _ => false

/-- The step from `s` to `t` takes the manager out of
`pthread_barrier_wait(&continue_done)` (l.124). -/
def manager_passes_drain (s t : State) : Bool :=
  (decide (s.mgr = .cdenter) || decide (s.mgr = .cdwait)) && decide (t.mgr = .reset_egress)

/-- Thread `tid` is blocked inside `pthread_barrier_wait`, on `continue_done`
(l.124, l.208) or on `egress_sync` (l.221). -/
def blocked_in_barrier (s : State) : Tid → Bool
  | .manager => decide (s.mgr = .cdwait)
  | .worker i =>
    decide (s.workers[i]? = some .cdwait) || decide (s.workers[i]? = some .eswait)
  | .observer _ => false

end Syncpoint

namespace Syncpoint

/-! ## Cycle numbers: the system with its history -/

/-- A state of the system together with two history variables, which the program
never reads.  Entry `i` of `round` is the number of times worker `i` has executed
`nb_workers_ingress++` (l.185): the number of the cycle its current (or, outside
`syncpoint_wait`, its last) call belongs to.  `released` is the number of times
the manager has executed `nb_workers_ingress = 0` (l.107): the number of cycles
it has released. -/
structure Traced where
  st : State
  round : List Nat
  released : Nat
deriving DecidableEq, Repr

/-- The freshly created object: no worker has arrived, no cycle was released. -/
def traced_init (nb_workers nobs : Nat) : Traced :=
  { st := syncpoint_init nb_workers nobs
    round := List.replicate nb_workers 0
    released := 0 }

/-- The transition function `step`, recording the history: a worker executing
l.185 enters its next cycle, the manager executing l.107 releases one. -/
def traced_step (g : Traced) (l : Label) : Option Traced :=
  match step g.st l with
  | none => none
  | some t =>
    some
      { st := t
        round :=
          match l with
          | .worker i =>
            if g.st.workers[i]? = some .inc then g.round.set i (g.round.getD i 0 + 1)
            else g.round
          | _ => g.round
        released :=
          match l with
          | .manager => if g.st.mgr = .reset_ingress then g.released + 1 else g.released
          | _ => g.released }

/-- Run a schedule, recording the history. -/
def traced_run (g : Traced) : List Label → Option Traced
  | [] => some g
  | l :: ls => (traced_step g l).bind (fun h => traced_run h ls)

/-- States with history reachable from `traced_init nb_workers nobs`. -/
inductive TracedReachable (nb_workers nobs : Nat) : Traced → Prop where
  | init : TracedReachable nb_workers nobs (traced_init nb_workers nobs)
  | step (g h : Traced) (l : Label) :
      TracedReachable nb_workers nobs g → traced_step g l = some h →
      TracedReachable nb_workers nobs h

/-- Worker `j` has returned from its call of `syncpoint_wait` of cycle `k`, hence
has left the exit barrier `egress_sync` (l.221) of that cycle: either it has
already executed the increment of a later cycle, or cycle `k` is the last one it
has incremented for and it is outside `syncpoint_wait` or has only taken the
mutex of its next call (l.179). -/
def passed_exit_barrier (g : Traced) (j k : Nat) : Bool :=
  match g.st.workers[j]?, g.round[j]? with
  | some pc, some r =>
    decide (k < r) || (decide (r = k) && (decide (pc = .idle) || decide (pc = .inc)))
  | _, _ => false

/-- Worker `j` is between its release from the arrival wait and the exit barrier
of the cycle it is in: it has left the loop of l.196 and not yet left
`egress_sync` (l.221), or the manager has already released its cycle (executed
l.107 for it) and it is still inside `pthread_cond_wait` (l.197), signalled or
not, or about to re-test l.196. -/
def departing (g : Traced) (j : Nat) : Bool :=
  match g.st.workers[j]?, g.round[j]? with
  | some pc, some r =>
    past_wait_loop pc ||
      ((decide (pc = .blocked) || decide (pc = .woken) || decide (pc = .loop)) &&
        decide (r ≤ g.released))
  | _, _ => false

/-- Program points of a worker whose increment of l.185 is part of the current
value of `nb_workers_ingress` as long as the manager has not reset it. -/
def countedPc : WPc → Bool
  | .cmp | .setflag | .bcast | .loop | .blocked | .woken => true
  | _ => false

/-- Phases in which the manager has not yet released the arrivals that are in
progress: everything except l.108 to the end of `continue_done`. -/
def gathering : MPc → Bool
  | .reset_completed | .bcast | .unlock | .cdenter | .cdwait => false
  | _ => true

/-- How far a worker at program point `pc` is ahead of the number of released
cycles while the manager is at `m`. -/
def ahead (m : MPc) (pc : WPc) : Nat :=
  if gathering m && countedPc pc then 1 else 0

/-- Cycle numbers are determined by the program counters: a worker is in cycle
`released + 1` exactly while its increment is waiting for the next release, and
in cycle `released` otherwise. -/
structure RoundInv (N : Nat) (g : Traced) : Prop where
  len : g.round.length = N
  round : ∀ (j : Nat) (pc : WPc), g.st.workers[j]? = some pc →
    g.round[j]? = some (g.released + ahead g.st.mgr pc)

end Syncpoint

namespace Syncpoint

/-! ## Schedules: sequential scenarios run on the concurrent embedding -/

/-- The steps of worker `i` from its call of `syncpoint_wait` until it blocks in
`pthread_cond_wait` (l.197): lock, increment, test of l.186, (for the last
arrival: l.187 and l.188,) test of l.196 and wait. -/
def arrive_steps (last : Bool) (i : Nat) : List Label :=
  List.replicate (if last then 6 else 4) (.worker i)

/-- The workers listed in `ws` arrive one after the other, `m` workers having
arrived before them; `N` is the worker count. -/
def arrivals (N : Nat) : Nat → List Nat → List Label
  | _, [] => []
  | m, i :: ws => arrive_steps (decide (m + 1 = N)) i ++ arrivals N (m + 1) ws

/-- The steps of worker `i` from its wake-up in l.197 until it blocks in (or
opens) `egress_sync`: re-lock, test of l.196, l.203, l.206 (with l.208 for the
last one), l.215, l.221. -/
def depart_steps (i : Nat) : List Label :=
  List.replicate 6 (.worker i)

/-- The workers `k, k+1, ..., k+n-1` depart one after the other. -/
def departures : Nat → Nat → List Label
  | _, 0 => []
  | k, n + 1 => depart_steps k ++ departures (k + 1) n

/-- The manager runs `syncpoint_wait_all_stopped` without blocking. -/
def manager_wait_all_stopped : List Label :=
  [.call_wait_all_stopped, .manager, .manager]

/-- The manager runs `syncpoint_cont` until it blocks in `continue_done`. -/
def manager_cont_release : List Label :=
  .call_cont :: List.replicate 8 .manager

/-- One cycle up to the last statement of `syncpoint_cont`: the `N` workers
arrive, the manager calls `syncpoint_wait_all_stopped` and then `syncpoint_cont`,
and the workers depart; the manager is left about to execute l.130. -/
def cycle_upto_reset (N : Nat) : List Label :=
  arrivals N 0 (List.range N) ++ (manager_wait_all_stopped ++ (manager_cont_release ++
    departures 0 N))

/-- One cycle: `cycle_upto_reset`, then `syncpoint_cont` returns (its last
statement, l.130, is the last step). -/
def cycle (N : Nat) : List Label :=
  cycle_upto_reset N ++ [.manager]

/-- Worker program counters in closed form. -/
def worker_pcs (N : Nat) (f : Nat → WPc) : List WPc :=
  (List.range N).map f

/-- The state in which exactly the workers listed in `P` have arrived and are
blocked in `pthread_cond_wait` (l.197), nothing else having happened. -/
def arrived_state (N K : Nat) (P : List Nat) : State :=
  { syncpoint_init N K with
    nb_workers_ingress := P.length
    ingress_completed := decide (P.length = N)
    workers := worker_pcs N (fun j => if j ∈ P then .blocked else .idle) }

/-- The state in which the manager is blocked in `continue_done` and the workers
`0 .. k-1` have gone through their departure and are blocked in `egress_sync`,
the others being woken but not yet running. -/
def departing_state (N K k : Nat) : State :=
  { syncpoint_init N K with
    nb_workers_egress := k
    mgr := .cdwait
    workers := worker_pcs N (fun j => if j < k then .eswait else .woken)
    cycle_cd_manager := 1
    cycle_skipped := k }

end Syncpoint

namespace Syncpoint

/-! ## Sequential embedding: the operations as functions of what the pthread calls return -/

namespace Sequential

/-- The pthread calls made by `syncpoint_wait`, `syncpoint_wait_all_stopped` and
`syncpoint_cont`. -/
inductive Prim where
  /-- Call `pthread_mutex_lock(&worker_wait.sync.m)` (l.101, l.179) -/
  | lock_worker
  /-- Call `pthread_mutex_unlock(&worker_wait.sync.m)` (l.116, l.215) -/
  | unlock_worker
  /-- Call `pthread_cond_wait(&worker_wait.sync.c, &worker_wait.sync.m)` (l.197) -/
  | wait_worker
  /-- Call `pthread_cond_broadcast(&worker_wait.sync.c)` (l.110) -/
  | broadcast_worker
  /-- Call `pthread_mutex_lock(&client_worker_wait.m)` (l.140) -/
  | lock_client
  /-- Call `pthread_mutex_unlock(&client_worker_wait.m)` (l.154) -/
  | unlock_client
  /-- Call `pthread_cond_wait(&client_worker_wait.c, &client_worker_wait.m)` (l.147) -/
  | wait_client
  /-- Call `pthread_cond_broadcast(&client_worker_wait.c)` (l.188) -/
  | broadcast_client
  /-- Call `pthread_barrier_wait(&continue_done)` (l.124, l.208) -/
  | barrier_continue_done
  /-- Call `pthread_barrier_wait(&egress_sync)` (l.221) -/
  | barrier_egress_sync
deriving DecidableEq, Repr

/-- The three shared variables of `stop_sync_t`. -/
structure Vars where
  nb_workers_ingress : Nat
  nb_workers_egress : Nat
  ingress_completed : Bool
deriving DecidableEq, Repr

/-- What one pthread call hands back: its return code, and the values the other
threads have given to the shared variables by the time it returns (`none`: they
have not touched them). -/
structure Reply where
  rc : Int
  env : Option Vars
deriving DecidableEq, Repr

/-- What an operation does, in order: the pthread calls that returned, with
their return code, and its own writes to the shared variables. -/
inductive Event where
  | call (p : Prim) (rc : Int)
  | write_ingress (v : Nat)
  | write_egress (v : Nat)
  | write_completed (b : Bool)
deriving DecidableEq, Repr

/-- How far an operation got: it returned `true`, it returned `false`, or it is
still inside a pthread call because no reply is left for it. -/
inductive Outcome where
  | ok
  | failed
  | blocked
deriving DecidableEq, Repr

/-- The running state of an operation. -/
structure Ctx where
  vars : Vars
  log : List Event
  replies : List Reply
deriving DecidableEq, Repr

/-- The error test applied to a return code: `rc != 0`, and for the barrier waits
`rc != 0 && rc != PTHREAD_BARRIER_SERIAL_THREAD` (l.125, l.209, l.222).  The value
of `PTHREAD_BARRIER_SERIAL_THREAD` comes from `<pthread.h>` and is the parameter
`serial`. -/
def is_failure (serial : Int) : Prim → Int → Bool
  | .barrier_continue_done, rc => decide (rc ≠ 0) && decide (rc ≠ serial)
  | .barrier_egress_sync, rc => decide (rc ≠ 0) && decide (rc ≠ serial)
  | _, rc => decide (rc ≠ 0)

/-- The event is a pthread call that reported an error. -/
def is_error (serial : Int) : Event → Bool
  | .call p rc => is_failure serial p rc
  | _ => false

/-- The event is a write to a shared variable. -/
def is_write : Event → Bool
  | .call _ _ => false
  | _ => true

/-- The state after the call `p` has returned with reply `r`. -/
def returned (p : Prim) (r : Reply) (v : Vars) (log : List Event) (rs : List Reply) : Ctx :=
  { vars := r.env.getD v, log := log ++ [.call p r.rc], replies := rs }

/-- One pthread call followed by the error test of the source. -/
def call (serial : Int) (p : Prim) (c : Ctx) : Outcome × Ctx :=
  match c.replies with
  | [] => (.blocked, c)
  | r :: rs =>
    if is_failure serial p r.rc then (.failed, returned p r c.vars c.log rs)
    else (.ok, returned p r c.vars c.log rs)

/-- Sequencing: the rest of the function runs only if the call did not fail
(`if(rc != 0) return false;`). -/
def and_then (x : Outcome × Ctx) (f : Ctx → Outcome × Ctx) : Outcome × Ctx :=
  match x with
  | (.ok, c) => f c
  | r => r

/-- Assignment `nb_workers_ingress = v`. -/
def write_ingress (c : Ctx) (v : Nat) : Ctx :=
  { c with vars := { c.vars with nb_workers_ingress := v }, log := c.log ++ [.write_ingress v] }

/-- Assignment `nb_workers_egress = v`. -/
def write_egress (c : Ctx) (v : Nat) : Ctx :=
  { c with vars := { c.vars with nb_workers_egress := v }, log := c.log ++ [.write_egress v] }

/-- Assignment `ingress_completed = b`. -/
def write_completed (c : Ctx) (b : Bool) : Ctx :=
  { c with vars := { c.vars with ingress_completed := b }, log := c.log ++ [.write_completed b] }

/-- The loop `while(!ingress_completed) pthread_cond_wait(...)` (l.146-152). -/
def stopped_loop (serial : Int) : Vars → List Event → List Reply → Outcome × Ctx
  | v, log, [] =>
    if v.ingress_completed = false then (.blocked, ⟨v, log, []⟩) else (.ok, ⟨v, log, []⟩)
  | v, log, r :: rs =>
    if v.ingress_completed = false then
      if is_failure serial .wait_client r.rc then
        (.failed, returned .wait_client r v log rs)
      else
        stopped_loop serial (r.env.getD v) (log ++ [.call .wait_client r.rc]) rs
    else (.ok, ⟨v, log, r :: rs⟩)

/-- The loop `while(nb_workers_ingress) pthread_cond_wait(...)` (l.196-202). -/
def ingress_loop (serial : Int) : Vars → List Event → List Reply → Outcome × Ctx
  | v, log, [] =>
    if v.nb_workers_ingress ≠ 0 then (.blocked, ⟨v, log, []⟩) else (.ok, ⟨v, log, []⟩)
  | v, log, r :: rs =>
    if v.nb_workers_ingress ≠ 0 then
      if is_failure serial .wait_worker r.rc then
        (.failed, returned .wait_worker r v log rs)
      else
        ingress_loop serial (r.env.getD v) (log ++ [.call .wait_worker r.rc]) rs
    else (.ok, ⟨v, log, r :: rs⟩)

/-- Function `syncpoint_wait_all_stopped` (l.135-163). -/
def syncpoint_wait_all_stopped (serial : Int) (c : Ctx) : Outcome × Ctx :=
  and_then (call serial .lock_client c) fun c =>
  and_then (stopped_loop serial c.vars c.log c.replies) fun c =>
  call serial .unlock_client c

/-- Function `syncpoint_cont` (l.89-133). -/
def syncpoint_cont (serial : Int) (c : Ctx) : Outcome × Ctx :=
  and_then (syncpoint_wait_all_stopped serial c) fun c =>
  and_then (call serial .lock_worker c) fun c =>
  and_then (call serial .broadcast_worker (write_completed (write_ingress c 0) false)) fun c =>
  and_then (call serial .unlock_worker c) fun c =>
  and_then (call serial .barrier_continue_done c) fun c =>
  (.ok, write_egress c 0)

/-- The statements l.185-193 of `syncpoint_wait`. -/
def count_ingress (serial : Int) (nb_workers : Nat) (c : Ctx) : Outcome × Ctx :=
  let c1 := write_ingress c ((c.vars.nb_workers_ingress + 1) % UINT32_MOD)
  if c1.vars.nb_workers_ingress = nb_workers then
    call serial .broadcast_client (write_completed c1 true)
  else
    (.ok, c1)

/-- The statements l.203-213 of `syncpoint_wait`. -/
def count_egress (serial : Int) (nb_workers : Nat) (c : Ctx) : Outcome × Ctx :=
  let c1 := write_egress c ((c.vars.nb_workers_egress + 1) % UINT32_MOD)
  if c1.vars.nb_workers_egress = nb_workers then
    call serial .barrier_continue_done c1
  else
    (.ok, c1)

/-- Function `syncpoint_wait` (l.174-228). -/
def syncpoint_wait (serial : Int) (nb_workers : Nat) (c : Ctx) : Outcome × Ctx :=
  and_then (call serial .lock_worker c) fun c =>
  and_then (count_ingress serial nb_workers c) fun c =>
  and_then (ingress_loop serial c.vars c.log c.replies) fun c =>
  and_then (count_egress serial nb_workers c) fun c =>
  and_then (call serial .unlock_worker c) fun c =>
  call serial .barrier_egress_sync c

/-- The return value is `false` exactly when a logged call reported an error; an
erroneous call is the last event of the log; and the operation is blocked only
when no reply is left. -/
def Faithful (serial : Int) (r : Outcome × Ctx) : Prop :=
  (r.1 = .failed ↔ ∃ e ∈ r.2.log, is_error serial e = true) ∧
  (∀ pre e post, r.2.log = pre ++ e :: post → is_error serial e = true → post = []) ∧
  (r.1 = .blocked → r.2.replies = [])

/-- No event of the log is a call that reported an error. -/
def Clean (serial : Int) (log : List Event) : Prop :=
  ∀ e ∈ log, is_error serial e = false

/-- No event of the log is a write to a shared variable. -/
def NoWrite (log : List Event) : Prop :=
  ∀ e ∈ log, is_write e = false

/-- Shape of a result: a failed one ends with the first erroneous call, the
others contain none; a blocked one has used up the replies. -/
def WF (serial : Int) (r : Outcome × Ctx) : Prop :=
  match r.1 with
  | .failed => ∃ pre p rc, r.2.log = pre ++ [.call p rc] ∧ is_failure serial p rc = true ∧
      Clean serial pre
  | .ok => Clean serial r.2.log
  | .blocked => Clean serial r.2.log ∧ r.2.replies = []

/-- What `malloc` and the six pthread initialisation calls of `syncpoint_init`
hand back. -/
structure InitEnv where
  /-- Whether `malloc` returned a non-NULL pointer (l.64) -/
  malloc_ok : Bool
  /-- Return code of `pthread_barrier_init(&continue_done, NULL, 2)` (l.70) -/
  continue_done_rc : Int
  /-- Return code of `pthread_mutex_init(&worker_wait.sync.m, NULL)` (l.58 from l.75) -/
  worker_mutex_rc : Int
  /-- Return code of `pthread_cond_init(&worker_wait.sync.c, NULL)` (l.59 from l.75) -/
  worker_cond_rc : Int
  /-- Return code of `pthread_mutex_init(&client_worker_wait.m, NULL)` (l.58 from l.76) -/
  client_mutex_rc : Int
  /-- Return code of `pthread_cond_init(&client_worker_wait.c, NULL)` (l.59 from l.76) -/
  client_cond_rc : Int
  /-- Return code of `pthread_barrier_init(&egress_sync, NULL, nb_workers)` (l.78) -/
  egress_sync_rc : Int
deriving DecidableEq, Repr

/-- The object `syncpoint_init` returns; for each pthread object, whether its
initialisation call succeeded. -/
structure Cfg where
  nb_workers : Nat
  vars : Vars
  continue_done_ready : Bool
  worker_mutex_ready : Bool
  worker_cond_ready : Bool
  client_mutex_ready : Bool
  client_cond_ready : Bool
  egress_sync_ready : Bool
deriving DecidableEq, Repr

/-- All seven backing resources were acquired. -/
def all_acquired (env : InitEnv) : Bool :=
  env.malloc_ok && decide (env.continue_done_rc = 0) && decide (env.worker_mutex_rc = 0) &&
    decide (env.worker_cond_rc = 0) && decide (env.client_mutex_rc = 0) &&
    decide (env.client_cond_rc = 0) && decide (env.egress_sync_rc = 0)

/-- Function `syncpoint_init` (l.62-81): only the result of `malloc` is tested; the return
codes of the pthread initialisation calls are discarded (`_init_cond` returns
`void`). -/
def syncpoint_init (nb_workers : Nat) (env : InitEnv) : Option Cfg :=
  if env.malloc_ok = false then none
  else some
    { nb_workers := nb_workers
      vars := { nb_workers_ingress := 0, nb_workers_egress := 0, ingress_completed := false }
      continue_done_ready := decide (env.continue_done_rc = 0)
      worker_mutex_ready := decide (env.worker_mutex_rc = 0)
      worker_cond_ready := decide (env.worker_cond_rc = 0)
      client_mutex_ready := decide (env.client_mutex_rc = 0)
      client_cond_ready := decide (env.client_cond_rc = 0)
      egress_sync_ready := decide (env.egress_sync_rc = 0) }

end Sequential

end Syncpoint

namespace Syncpoint

/-! ## Concrete states and schedules used to instantiate the theorems -/

/-- Three workers have arrived and the manager, inside `syncpoint_cont`, has
executed l.107 but not yet l.108; the observer then takes the secondary mutex. -/
def race_schedule : List Label :=
  arrivals 3 0 [0, 1, 2] ++
    [.call_cont, .manager, .manager, .manager, .manager, .observer 0]

/-- The state reached by `race_schedule` from `syncpoint_init 3 1`. -/
def race_state : State :=
  { nb_workers := 3
    nb_workers_ingress := 0
    nb_workers_egress := 0
    ingress_completed := true
    worker_m := some .manager
    client_m := some (.observer 0)
    mgr := .reset_completed
    workers := [.blocked, .blocked, .blocked]
    observers := [.test]
    cycle_cd_worker := 0
    cycle_cd_manager := 0
    cycle_skipped := 0 }

/-- The observer of `race_state` has read `ingress_completed == true` (l.146). -/
def race_state_left : State :=
  { race_state with observers := [.unlock] }

/-- Three workers have arrived and the manager has entered
`syncpoint_wait_all_stopped`. -/
def polling_state : State :=
  { arrived_state 3 1 [0, 1, 2] with client_m := some .manager, mgr := .wtest false }

/-- The manager of `polling_state` has read `ingress_completed == true`. -/
def polling_state_left : State :=
  { polling_state with mgr := .wunlock false }

/-- One worker, released by the manager, reaches `continue_done` before the
manager does. -/
def early_drain_schedule : List Label :=
  arrivals 1 0 [0] ++ (.call_cont :: List.replicate 7 .manager) ++
    List.replicate 4 (.worker 0)

/-- The state reached by `early_drain_schedule` from `syncpoint_init 1 0`: the
worker is blocked in `pthread_barrier_wait(&continue_done)` (l.208) and still
owns `worker_wait.sync.m`, which it releases only in l.215. -/
def early_drain_state : State :=
  { syncpoint_init 1 0 with
    nb_workers_egress := 1
    worker_m := some (.worker 0)
    mgr := .cdenter
    workers := [.cdwait]
    cycle_cd_worker := 1 }

/-- The single worker has executed l.203 while the manager is blocked in
`continue_done`. -/
def last_worker_schedule : List Label :=
  arrivals 1 0 [0] ++ manager_cont_release ++ List.replicate 3 (.worker 0)

/-- The state reached by `last_worker_schedule` from `syncpoint_init 1 0`. -/
def last_worker_state : State :=
  { departing_state 1 0 0 with
    nb_workers_egress := 1
    worker_m := some (.worker 0)
    workers := [.ecmp] }

/-- The state after the worker of `last_worker_state` has executed l.206-208. -/
def last_worker_passed : State :=
  { last_worker_state with
    mgr := .reset_egress
    workers := [.unlock]
    cycle_cd_worker := 1 }

/-- Three workers: all have arrived and the manager, inside `syncpoint_cont`, is
blocked in `continue_done`; worker 0 has then been woken and has executed l.203. -/
def first_departure_schedule : List Label :=
  arrivals 3 0 [0, 1, 2] ++ manager_cont_release ++ List.replicate 3 (.worker 0)

/-- The state reached by `first_departure_schedule` from `syncpoint_init 3 1`:
worker 0 is about to evaluate l.206 with `nb_workers_egress = 1`. -/
def first_departure_state : State :=
  { departing_state 3 1 0 with
    nb_workers_egress := 1
    worker_m := some (.worker 0)
    workers := [.ecmp, .woken, .woken] }

/-- The state after worker 0 of `first_departure_state` has evaluated l.206 to
false. -/
def first_departure_skipped : State :=
  { first_departure_state with
    workers := [.unlock, .woken, .woken]
    cycle_skipped := 1 }

/-- Three workers, the manager blocked in `continue_done`: workers 0 and 1 have
departed and wait in `egress_sync`, worker 2 has executed l.203. -/
def last_departure_schedule : List Label :=
  arrivals 3 0 [0, 1, 2] ++ manager_cont_release ++ departures 0 2 ++
    List.replicate 3 (.worker 2)

/-- The state reached by `last_departure_schedule` from `syncpoint_init 3 1`:
worker 2 is about to evaluate l.206 with `nb_workers_egress = 3`. -/
def last_departure_state : State :=
  { departing_state 3 1 2 with
    nb_workers_egress := 3
    worker_m := some (.worker 2)
    workers := [.eswait, .eswait, .ecmp] }

/-- The state after worker 2 of `last_departure_state` has executed l.206-208:
the rendezvous is complete and the manager is about to execute l.130. -/
def last_departure_passed : State :=
  { last_departure_state with
    mgr := .reset_egress
    workers := [.eswait, .eswait, .unlock]
    cycle_cd_worker := 1 }

/-- Three workers, released by the manager, of which the last one reaches
`continue_done` before the manager does. -/
def early_last_schedule : List Label :=
  arrivals 3 0 [0, 1, 2] ++ (.call_cont :: List.replicate 7 .manager) ++ departures 0 2 ++
    List.replicate 4 (.worker 2)

/-- The state reached by `early_last_schedule` from `syncpoint_init 3 1`: worker 2
is blocked in `pthread_barrier_wait(&continue_done)` (l.208) and owns
`worker_wait.sync.m`; the manager has not yet entered the barrier. -/
def early_last_state : State :=
  { syncpoint_init 3 1 with
    nb_workers_egress := 3
    worker_m := some (.worker 2)
    mgr := .cdenter
    workers := [.eswait, .eswait, .cdwait]
    cycle_cd_worker := 1
    cycle_skipped := 2 }

/-- Three workers and one observer run a complete cycle; then worker 0 arrives
for the second cycle and worker 1 takes the mutex for its second call. -/
def second_cycle_schedule : List Label :=
  cycle 3 ++ arrive_steps false 0 ++ [.worker 1]

/-- The state with history reached by `second_cycle_schedule` from
`traced_init 3 1`: one cycle has been released, worker 0 is in its second cycle
and blocked in the arrival wait, worker 1 is about to execute l.185. -/
def second_cycle_state : Traced :=
  { st :=
      { syncpoint_init 3 1 with
        nb_workers_ingress := 1
        worker_m := some (.worker 1)
        workers := [.blocked, .inc, .idle] }
    round := [2, 1, 1]
    released := 1 }

/-- Replies for a `syncpoint_cont` whose `pthread_cond_broadcast` (l.110) fails
with `EINVAL`. -/
def Sequential.broadcast_fails : List Sequential.Reply :=
  [⟨0, none⟩, ⟨0, none⟩, ⟨0, none⟩, ⟨22, none⟩, ⟨0, none⟩]

/-- Environment in which `malloc` succeeds and `pthread_barrier_init(&egress_sync, ...)` fails with
`EINVAL`. -/
def Sequential.barrier_init_fails : Sequential.InitEnv :=
  { malloc_ok := true
    continue_done_rc := 0
    worker_mutex_rc := 0
    worker_cond_rc := 0
    client_mutex_rc := 0
    client_cond_rc := 0
    egress_sync_rc := 22 }

end Syncpoint

/-! ## Lemmas and theorems -/

set_option linter.unusedTactic false
set_option linter.unreachableTactic false
set_option linter.unnecessarySeqFocus false
set_option linter.unusedVariables false

namespace Syncpoint

/-! ## Counting lemmas -/

theorem count_set_get {α : Type} [DecidableEq α] (ws : List α) (i : Nat) (a b c : α)
    (h : ws[i]? = some a) :
    (ws.set i b).count c + (if a = c then 1 else 0) = ws.count c + (if b = c then 1 else 0) := by
  induction ws generalizing i with
  | nil => simp at h
  | cons x xs ih =>
    cases i with
    | zero =>
      simp at h
      subst h
      simp [List.count_cons]
      omega
    | succ k =>
      simp at h
      have := ih k h
      simp [List.count_cons]
      omega

theorem count_pos_get {α : Type} [DecidableEq α] (ws : List α) (i : Nat) (a : α)
    (h : ws[i]? = some a) : 0 < ws.count a := by
  exact List.count_pos_iff.mpr (List.getElem?_mem h)

theorem count_set_eq {α : Type} [DecidableEq α] (ws : List α) (i : Nat) (a b c : α)
    (h : ws[i]? = some a) :
    (ws.set i b).count c = ws.count c + (if b = c then 1 else 0) - (if a = c then 1 else 0) := by
  have h1 := count_set_get ws i a b c h
  have h2 := count_pos_get ws i a h
  by_cases hac : a = c
  · subst hac; simp at h1 ⊢; omega
  · simp [hac] at h1 ⊢; omega

theorem count_total (ws : List WPc) :
    ws.length = ws.count .idle + ws.count .inc + ws.count .cmp + ws.count .setflag +
      ws.count .bcast + ws.count .loop + ws.count .blocked + ws.count .woken +
      ws.count .einc + ws.count .ecmp + ws.count .cdwait + ws.count .unlock +
      ws.count .esenter + ws.count .eswait := by
  induction ws with
  | nil => simp
  | cons x xs ih =>
    cases x <;> simp [List.count_cons] <;> omega

theorem count_map_merge {α : Type} [DecidableEq α] (f : α → α) (a b : α) (hab : a ≠ b)
    (hfa : f a = b) (hf : ∀ x, x ≠ a → f x = x) (ws : List α) (c : α) :
    (ws.map f).count c =
      if c = a then 0
      else if c = b then ws.count b + ws.count a
      else ws.count c := by
  induction ws with
  | nil => simp
  | cons x xs ih =>
    simp only [List.map_cons, List.count_cons, ih]
    by_cases hxa : x = a
    · subst hxa
      rw [hfa]
      by_cases hca : c = x
      · subst hca
        have : ¬ (b = c) := fun h => hab h.symm
        simp [this]
      · by_cases hcb : c = b
        · subst hcb
          have : ¬ (x = c) := fun h => hca h.symm
          simp [hca, this]
          omega
        · have h1 : ¬ (x = c) := fun h => hca h.symm
          have h2 : ¬ (b = c) := fun h => hcb h.symm
          simp [hca, hcb, h1, h2]
    · rw [hf x hxa]
      by_cases hca : c = a
      · subst hca
        simp [hxa]
      · by_cases hcb : c = b
        · subst hcb
          have : ¬ (a = c) := fun h => hca h.symm
          by_cases hxc : x = c
          · simp [hxc, hca]; omega
          · simp [hxc, hca, hxa]
        · simp [hca, hcb]

theorem count_map_wake_worker (ws : List WPc) (c : WPc) :
    (ws.map wake_worker).count c =
      if c = .blocked then 0
      else if c = .woken then ws.count .woken + ws.count .blocked
      else ws.count c :=
  count_map_merge wake_worker .blocked .woken (by decide) rfl
    (by intro x hx; cases x <;> simp_all [wake_worker]) ws c

theorem count_map_cd_release (ws : List WPc) (c : WPc) :
    (ws.map cd_release).count c =
      if c = .cdwait then 0
      else if c = .unlock then ws.count .unlock + ws.count .cdwait
      else ws.count c :=
  count_map_merge cd_release .cdwait .unlock (by decide) rfl
    (by intro x hx; cases x <;> simp_all [cd_release]) ws c

theorem count_map_es_release (ws : List WPc) (c : WPc) :
    (ws.map es_release).count c =
      if c = .eswait then 0
      else if c = .idle then ws.count .idle + ws.count .eswait
      else ws.count c :=
  count_map_merge es_release .eswait .idle (by decide) rfl
    (by intro x hx; cases x <;> simp_all [es_release]) ws c

end Syncpoint

namespace Syncpoint

/-! ## Shape and mutual exclusion are preserved by every step -/

@[simp] theorem wOwned_none : wOwned none = 0 := rfl
@[simp] theorem wOwned_worker (i : Nat) : wOwned (some (.worker i)) = 1 := rfl
@[simp] theorem wOwned_manager : wOwned (some .manager) = 0 := rfl
@[simp] theorem wOwned_observer (j : Nat) : wOwned (some (.observer j)) = 0 := rfl
@[simp] theorem mOwned_none : mOwned none = false := rfl
@[simp] theorem mOwned_worker (i : Nat) : mOwned (some (.worker i)) = false := rfl
@[simp] theorem mOwned_manager : mOwned (some .manager) = true := rfl
@[simp] theorem mOwned_observer (j : Nat) : mOwned (some (.observer j)) = false := rfl

@[simp] theorem heldM_wake (m : MPc) : heldM (wake_manager m) = heldM m := by
  cases m <;> rfl

@[simp] theorem heldM_cd (m : MPc) :
    heldM (if m = .cdwait then .reset_egress else m) = heldM m := by
  cases m <;> simp [heldM]

theorem lockCount_worker (s t : State) (i : Nat) (h : LockCount s)
    (hs : syncpoint_wait_step s i = some t) : LockCount t := by
  obtain ⟨h1, h2⟩ := h
  unfold syncpoint_wait_step at hs
  cases hpc : s.workers[i]? with
  | none => simp [hpc] at hs
  | some pc =>
    have hc := fun b c => count_set_eq s.workers i pc b c hpc
    have hp := count_pos_get s.workers i pc hpc
    rw [hpc] at hs
    simp only [holders, cnt] at h1
    rcases hw : s.worker_m with _ | ⟨_ | k | k⟩ <;> rw [hw] at h1 h2 <;>
    cases pc <;> simp only [hw, reduceCtorEq, if_false, if_true] at hs <;>
      (try split at hs) <;> (try split at hs) <;>
      (try (simp only [Option.some.injEq, reduceCtorEq] at hs)) <;> (try subst hs) <;>
      (try (simp only [wOwned_none, wOwned_worker, wOwned_manager, wOwned_observer] at h1; omega)) <;>
      constructor <;>
      simp only [holders, cnt, hc, count_map_cd_release, count_map_es_release, reduceCtorEq,
        if_false, if_true, wOwned_none, wOwned_worker, wOwned_manager, wOwned_observer,
        mOwned_none, mOwned_worker, mOwned_manager, mOwned_observer,
        heldM_wake, heldM_cd, h2] at h1 ⊢ <;>
      (try omega)

theorem lockCount_observer (s t : State) (j : Nat) (h : LockCount s)
    (hs : syncpoint_wait_all_stopped_step s j = some t) : LockCount t := by
  obtain ⟨h1, h2⟩ := h
  unfold syncpoint_wait_all_stopped_step at hs
  cases hpc : s.observers[j]? with
  | none => simp [hpc] at hs
  | some pc =>
    rw [hpc] at hs
    cases pc <;> simp only [] at hs <;> (try split at hs) <;>
      (try (simp only [Option.some.injEq, reduceCtorEq] at hs)) <;> (try subst hs) <;>
      exact ⟨h1, h2⟩

theorem lockCount_manager (s t : State) (h : LockCount s)
    (hs : syncpoint_cont_step s = some t) : LockCount t := by
  obtain ⟨h1, h2⟩ := h
  unfold syncpoint_cont_step at hs
  simp only [holders, cnt] at h1
  rcases hw : s.worker_m with _ | ⟨_ | k | k⟩ <;> rw [hw] at h1 h2 <;>
  cases hm : s.mgr <;> simp only [hm, hw, reduceCtorEq, if_false, if_true] at hs <;>
    (try split at hs) <;>
    (try (simp only [Option.some.injEq, reduceCtorEq] at hs)) <;> (try subst hs) <;>
    (try (simp only [hm, heldM, mOwned_none, mOwned_worker, mOwned_manager, mOwned_observer,
      reduceCtorEq] at h2)) <;>
    constructor <;>
    simp only [holders, cnt, count_map_cd_release, count_map_wake_worker, reduceCtorEq,
      if_false, if_true, wOwned_none, wOwned_worker, wOwned_manager, wOwned_observer,
      mOwned_none, mOwned_worker, mOwned_manager, mOwned_observer, heldM] at h1 ⊢ <;>
    (try split) <;> (try rfl) <;> (try omega)

theorem lockCount_step (s t : State) (l : Label) (h : LockCount s)
    (hs : step s l = some t) : LockCount t := by
  cases l with
  | worker i => exact lockCount_worker s t i h hs
  | worker_spurious i =>
    simp only [step] at hs
    split at hs
    · rename_i hpc
      simp only [Option.some.injEq] at hs
      subst hs
      obtain ⟨h1, h2⟩ := h
      have hc := fun b c => count_set_eq s.workers i _ b c hpc
      have hp := count_pos_get s.workers i _ hpc
      constructor
      · simp only [holders, cnt, hc, reduceCtorEq, if_false, if_true] at h1 ⊢
        omega
      · exact h2
    · simp at hs
  | observer j => exact lockCount_observer s t j h hs
  | observer_spurious j =>
    simp only [step] at hs
    split at hs
    · simp only [Option.some.injEq] at hs
      subst hs
      exact ⟨h.1, h.2⟩
    · simp at hs
  | call_wait_all_stopped =>
    simp only [step, manager_call] at hs
    split at hs
    · rename_i hc
      simp only [Option.some.injEq] at hs
      subst hs
      obtain ⟨h1, h2⟩ := h
      rw [hc.1] at h2
      exact ⟨h1, h2⟩
    · simp at hs
  | call_cont =>
    simp only [step, manager_call] at hs
    split at hs
    · rename_i hc
      simp only [Option.some.injEq] at hs
      subst hs
      obtain ⟨h1, h2⟩ := h
      rw [hc.1] at h2
      exact ⟨h1, h2⟩
    · simp at hs
  | manager => exact lockCount_manager s t h hs
  | manager_spurious =>
    simp only [step] at hs
    split at hs
    · rename_i c hm
      simp only [Option.some.injEq] at hs
      subst hs
      obtain ⟨h1, h2⟩ := h
      rw [hm] at h2
      exact ⟨h1, h2⟩
    · simp at hs

theorem shape_step (N K : Nat) (s t : State) (l : Label) (h : Shape N K s)
    (hs : step s l = some t) : Shape N K t := by
  obtain ⟨h1, h2, h3⟩ := h
  cases l with
  | worker i =>
    simp only [step] at hs
    unfold syncpoint_wait_step at hs
    cases hpc : s.workers[i]? with
    | none => simp [hpc] at hs
    | some pc =>
      rw [hpc] at hs
      cases pc <;> simp only [] at hs <;> (try split at hs) <;> (try split at hs) <;>
        (try (simp only [Option.some.injEq, reduceCtorEq] at hs)) <;> (try subst hs) <;>
        constructor <;> simp only [List.length_set, List.length_map] <;> assumption
  | worker_spurious i =>
    simp only [step] at hs
    split at hs
    · simp only [Option.some.injEq] at hs
      subst hs
      constructor <;> simp only [List.length_set, List.length_map] <;> assumption
    · simp at hs
  | observer j =>
    simp only [step] at hs
    unfold syncpoint_wait_all_stopped_step at hs
    cases hpc : s.observers[j]? with
    | none => simp [hpc] at hs
    | some pc =>
      rw [hpc] at hs
      cases pc <;> simp only [] at hs <;> (try split at hs) <;>
        (try (simp only [Option.some.injEq, reduceCtorEq] at hs)) <;> (try subst hs) <;>
        constructor <;> simp only [List.length_set, List.length_map] <;> assumption
  | observer_spurious j =>
    simp only [step] at hs
    split at hs
    · simp only [Option.some.injEq] at hs
      subst hs
      constructor <;> simp only [List.length_set, List.length_map] <;> assumption
    · simp at hs
  | call_wait_all_stopped =>
    simp only [step, manager_call] at hs
    split at hs
    · simp only [Option.some.injEq] at hs
      subst hs
      exact ⟨h1, h2, h3⟩
    · simp at hs
  | call_cont =>
    simp only [step, manager_call] at hs
    split at hs
    · simp only [Option.some.injEq] at hs
      subst hs
      exact ⟨h1, h2, h3⟩
    · simp at hs
  | manager =>
    simp only [step] at hs
    unfold syncpoint_cont_step at hs
    cases hm : s.mgr <;> simp only [hm, reduceCtorEq] at hs <;>
      (try split at hs) <;>
      (try (simp only [Option.some.injEq, reduceCtorEq] at hs)) <;> (try subst hs) <;>
      constructor <;> simp only [List.length_set, List.length_map] <;> assumption
  | manager_spurious =>
    simp only [step] at hs
    split at hs
    · simp only [Option.some.injEq] at hs
      subst hs
      exact ⟨h1, h2, h3⟩
    · simp at hs

end Syncpoint

namespace Syncpoint

/-! ## The owner fields track the thread inside each critical section -/

theorem getElem?_set_of_get {α : Type} (ws : List α) (i k : Nat) (a b : α)
    (h : ws[i]? = some a) :
    (ws.set i b)[k]? = if i = k then some b else ws[k]? := by
  have hlt : i < ws.length := (List.getElem?_eq_some.mp h).1
  simp [List.getElem?_set, hlt]

@[simp] theorem heldW_cd_release (p : WPc) : heldW (cd_release p) = heldW p := by
  cases p <;> rfl
@[simp] theorem heldW_es_release (p : WPc) : heldW (es_release p) = heldW p := by
  cases p <;> rfl
@[simp] theorem heldW_wake_worker (p : WPc) : heldW (wake_worker p) = heldW p := by
  cases p <;> rfl
@[simp] theorem heldO_wake_observer (p : OPc) : heldO (wake_observer p) = heldO p := by
  cases p <;> rfl
@[simp] theorem heldMC_wake (m : MPc) : heldMC (wake_manager m) = heldMC m := by
  cases m <;> rfl
@[simp] theorem heldMC_cd (m : MPc) :
    heldMC (if m = .cdwait then .reset_egress else m) = heldMC m := by
  cases m <;> simp [heldMC]

theorem heldW_comp_cd : heldW ∘ cd_release = heldW := by
  funext p; cases p <;> rfl
theorem heldW_comp_es : heldW ∘ es_release = heldW := by
  funext p; cases p <;> rfl
theorem heldW_comp_wake : heldW ∘ wake_worker = heldW := by
  funext p; cases p <;> rfl
theorem heldO_comp_wake : heldO ∘ wake_observer = heldO := by
  funext p; cases p <;> rfl

theorem holdsW_def (s : State) (k : Nat) :
    holdsW s k = ((s.workers[k]?).map heldW).getD false := by
  unfold holdsW
  cases s.workers[k]? <;> rfl

theorem holdsO_def (s : State) (k : Nat) :
    holdsO s k = ((s.observers[k]?).map heldO).getD false := by
  unfold holdsO
  cases s.observers[k]? <;> rfl

theorem owners_worker (s t : State) (i : Nat) (h : Owners s)
    (hs : syncpoint_wait_step s i = some t) : Owners t := by
  obtain ⟨h1, h2, h3, h4, h5, h6⟩ := h
  unfold syncpoint_wait_step at hs
  cases hpc : s.workers[i]? with
  | none => simp [hpc] at hs
  | some pc =>
    have hg := fun b k => getElem?_set_of_get s.workers i k pc b hpc
    have hi := h1 i
    rw [hpc] at hs
    simp only [holdsW_def, holdsO_def, hpc, Option.map_some', Option.getD_some] at h1 h4 hi
    cases pc <;> simp only [] at hs <;>
      (try split at hs) <;> (try split at hs) <;>
      (try (simp only [Option.some.injEq, reduceCtorEq] at hs)) <;> (try subst hs) <;>
      simp only [heldW, reduceCtorEq, iff_true, iff_false] at hi <;>
      constructor <;>
      simp only [holdsW_def, holdsO_def, List.getElem?_map, Option.map_map, hg,
        heldW_comp_cd, heldW_comp_es, heldO_comp_wake] <;>
      (try assumption) <;>
      (try (intro k; have hk := h1 k; by_cases hik : i = k <;> simp_all [Function.comp_def, heldW])) <;>
      (try simp_all [heldW])

theorem owners_observer (s t : State) (j : Nat) (h : Owners s)
    (hs : syncpoint_wait_all_stopped_step s j = some t) : Owners t := by
  obtain ⟨h1, h2, h3, h4, h5, h6⟩ := h
  unfold syncpoint_wait_all_stopped_step at hs
  cases hpc : s.observers[j]? with
  | none => simp [hpc] at hs
  | some pc =>
    have hg := fun b k => getElem?_set_of_get s.observers j k pc b hpc
    have hj := h4 j
    rw [hpc] at hs
    simp only [holdsW_def, holdsO_def, hpc, Option.map_some', Option.getD_some] at h1 h4 hj
    cases pc <;> simp only [] at hs <;>
      (try split at hs) <;>
      (try (simp only [Option.some.injEq, reduceCtorEq] at hs)) <;> (try subst hs) <;>
      simp only [heldO, reduceCtorEq, iff_true, iff_false] at hj <;>
      constructor <;>
      simp only [holdsW_def, holdsO_def, List.getElem?_map, Option.map_map, hg] <;>
      (try assumption) <;>
      (try (intro k; have hk := h4 k; by_cases hjk : j = k <;> simp_all [heldO])) <;>
      (try simp_all [heldO])

theorem owners_manager (s t : State) (h : Owners s)
    (hs : syncpoint_cont_step s = some t) : Owners t := by
  obtain ⟨h1, h2, h3, h4, h5, h6⟩ := h
  unfold syncpoint_cont_step at hs
  simp only [holdsW_def, holdsO_def] at h1 h4
  cases hm : s.mgr <;> simp only [hm, reduceCtorEq] at hs <;>
    (try split at hs) <;>
    (try (simp only [Option.some.injEq, reduceCtorEq] at hs)) <;> (try subst hs) <;>
    simp only [hm, heldM, heldMC, reduceCtorEq, iff_true, iff_false] at h2 h5 <;>
    constructor <;>
    simp only [holdsW_def, holdsO_def, List.getElem?_map, Option.map_map,
      heldW_comp_cd, heldW_comp_wake] <;>
    (try assumption) <;>
    (try (intro k; have hk := h1 k; have hk4 := h4 k; simp_all [heldM, heldMC])) <;>
    (try simp_all [heldM, heldMC])

theorem owners_step (s t : State) (l : Label) (h : Owners s)
    (hs : step s l = some t) : Owners t := by
  cases l with
  | worker i => exact owners_worker s t i h hs
  | worker_spurious i =>
    simp only [step] at hs
    split at hs
    · rename_i hpc
      simp only [Option.some.injEq] at hs
      subst hs
      obtain ⟨h1, h2, h3, h4, h5, h6⟩ := h
      have hg := fun b k => getElem?_set_of_get s.workers i k _ b hpc
      have hi := h1 i
      simp only [holdsW_def, holdsO_def, hpc, Option.map_some', Option.getD_some] at h1 h4 hi
      simp only [heldW, reduceCtorEq, iff_true, iff_false] at hi
      constructor <;>
        simp only [holdsW_def, holdsO_def, hg] <;>
        (try assumption)
      intro k
      have hk := h1 k
      by_cases hik : i = k <;> simp_all [heldW]
    · simp at hs
  | observer j => exact owners_observer s t j h hs
  | observer_spurious j =>
    simp only [step] at hs
    split at hs
    · rename_i hpc
      simp only [Option.some.injEq] at hs
      subst hs
      obtain ⟨h1, h2, h3, h4, h5, h6⟩ := h
      have hg := fun b k => getElem?_set_of_get s.observers j k _ b hpc
      have hj := h4 j
      simp only [holdsW_def, holdsO_def, hpc, Option.map_some', Option.getD_some] at h1 h4 hj
      simp only [heldO, reduceCtorEq, iff_true, iff_false] at hj
      constructor <;>
        simp only [holdsW_def, holdsO_def, hg] <;>
        (try assumption)
      intro k
      have hk := h4 k
      by_cases hjk : j = k <;> simp_all [heldO]
    · simp at hs
  | call_wait_all_stopped =>
    simp only [step, manager_call] at hs
    split at hs
    · rename_i hc
      simp only [Option.some.injEq] at hs
      subst hs
      obtain ⟨h1, h2, h3, h4, h5, h6⟩ := h
      obtain ⟨hc1, hc2⟩ := hc
      simp only [holdsW_def, holdsO_def] at h1 h4
      constructor <;> simp only [holdsW_def, holdsO_def] <;> (try assumption) <;>
        (try (intro k; have hk4 := h4 k)) <;> simp_all [heldM, heldMC]
    · simp at hs
  | call_cont =>
    simp only [step, manager_call] at hs
    split at hs
    · rename_i hc
      simp only [Option.some.injEq] at hs
      subst hs
      obtain ⟨h1, h2, h3, h4, h5, h6⟩ := h
      obtain ⟨hc1, hc2⟩ := hc
      simp only [holdsW_def, holdsO_def] at h1 h4
      constructor <;> simp only [holdsW_def, holdsO_def] <;> (try assumption) <;>
        (try (intro k; have hk4 := h4 k)) <;> simp_all [heldM, heldMC]
    · simp at hs
  | manager => exact owners_manager s t h hs
  | manager_spurious =>
    simp only [step] at hs
    split at hs
    · rename_i c hm
      simp only [Option.some.injEq] at hs
      subst hs
      obtain ⟨h1, h2, h3, h4, h5, h6⟩ := h
      simp only [holdsW_def, holdsO_def] at h1 h4
      constructor <;> simp only [holdsW_def, holdsO_def] <;> (try assumption) <;>
        simp_all [heldM, heldMC]
    · simp at hs

end Syncpoint

namespace Syncpoint

/-! ## The phase invariant is preserved by worker steps -/

theorem wOwned_le (o : Option Tid) : wOwned o ≤ 1 := by
  rcases o with _ | ⟨_ | _ | _⟩ <;> simp

theorem wOwned_of_mOwned (o : Option Tid) (h : mOwned o = true) : wOwned o = 0 := by
  rcases o with _ | ⟨_ | _ | _⟩ <;> simp_all

@[simp] theorem phase_wake (m : MPc) : phase (wake_manager m) = phase m := by
  cases m <;> rfl

theorem phase_drain (m : MPc) : phase m = .drain ↔ m = .cdwait := by
  cases m <;> simp [phase]

theorem flag_as_nat (b : Bool) :
    ∃ f : Nat, f ≤ 1 ∧ (b = true ↔ f = 1) ∧ (b = false ↔ f = 0) := by
  cases b
  · exact ⟨0, by omega, by simp, by simp⟩
  · exact ⟨1, by omega, by simp, by simp⟩

set_option maxHeartbeats 1000000 in
theorem preInv_worker (N : Nat) (s t : State) (i : Nat) (hN : 1 ≤ N)
    (hU : N < UINT32_MOD) (hnb : s.nb_workers = N) (hlen : s.workers.length = N)
    (hl : LockCount s) (h : PreInv s)
    (hs : syncpoint_wait_step s i = some t) :
    PreInv t ∧ t.nb_workers_egress = s.nb_workers_egress ∧
      t.cycle_cd_worker = s.cycle_cd_worker ∧ t.cycle_cd_manager = s.cycle_cd_manager ∧
      t.cycle_skipped = s.cycle_skipped ∧ phase t.mgr = phase s.mgr ∧
      (s.ingress_completed = true → t.ingress_completed = true) ∧
      t.nb_workers = s.nb_workers := by
  have htot := count_total s.workers
  have hle : holders s ≤ 1 := by rw [hl.workers]; exact wOwned_le _
  have hes : es_waiting s = s.workers.count .eswait := rfl
  simp only [holders, cnt] at hle
  simp only [UINT32_MOD] at hU
  unfold syncpoint_wait_step at hs
  cases hpc : s.workers[i]? with
  | none => simp [hpc] at hs
  | some pc =>
    have hc := fun b c => count_set_eq s.workers i pc b c hpc
    have hp := count_pos_get s.workers i pc hpc
    rw [hpc] at hs
    obtain ⟨f, hf1, hft, hff⟩ := flag_as_nat s.ingress_completed
    obtain ⟨p1, p2, p3, p4, p5, p6, p7, p8⟩ := h
    simp only [arrived, leaving, cnt, hft, hff] at p1 p2 p3 p4 p5 p6 p7 p8
    cases pc <;> simp only [] at hs <;>
      (try split at hs) <;> (try split at hs) <;>
      (try (simp only [Option.some.injEq, reduceCtorEq] at hs)) <;> (try subst hs) <;>
      (try omega) <;>
      refine ⟨⟨?_, ?_, ?_, ?_, ?_, ?_, ?_, ?_⟩, ?_, ?_, ?_, ?_, ?_, ?_, ?_⟩ <;>
      (try simp only [arrived, leaving, cnt, hc, count_map_cd_release, count_map_es_release,
        reduceCtorEq, if_false, if_true, UINT32_MOD, hft, hff, false_implies, true_implies,
        Nat.add_zero, Nat.sub_zero, phase_wake, implies_true]) <;>
      (first | assumption | omega)

set_option maxHeartbeats 1000000 in
theorem postInv_worker (N : Nat) (s t : State) (i : Nat) (hN : 1 ≤ N)
    (hU : N < UINT32_MOD) (hnb : s.nb_workers = N) (hlen : s.workers.length = N)
    (hl : LockCount s) (h : PostInv s)
    (hne : ¬ (s.workers[i]? = some .ecmp ∧ s.nb_workers_egress = s.nb_workers))
    (hs : syncpoint_wait_step s i = some t) :
    PostInv t ∧ t.mgr = s.mgr ∧ t.cycle_cd_manager = s.cycle_cd_manager ∧
      cnt t .cdwait = cnt s .cdwait := by
  have htot := count_total s.workers
  have hle : holders s ≤ 1 := by rw [hl.workers]; exact wOwned_le _
  have hes : es_waiting s = s.workers.count .eswait := rfl
  simp only [holders, cnt] at hle
  simp only [UINT32_MOD] at hU
  unfold syncpoint_wait_step at hs
  cases hpc : s.workers[i]? with
  | none => simp [hpc] at hs
  | some pc =>
    have hc := fun b c => count_set_eq s.workers i pc b c hpc
    have hp := count_pos_get s.workers i pc hpc
    rw [hpc] at hs
    obtain ⟨f, hf1, hft, hff⟩ := flag_as_nat s.ingress_completed
    obtain ⟨q1, q2, q3, q4, q5, q6, q7, q8, q9, q10, q11, q12⟩ := h
    simp only [arrived, leaving, cnt, hft, hff] at q1 q2 q3 q4 q5 q6 q7 q8 q9 q10 q11 q12
    by_cases hecmp : pc = .ecmp
    · subst hecmp
      have hne2 : ¬ (s.nb_workers_egress = s.nb_workers) := fun he => hne ⟨hpc, he⟩
      simp only [hne2, if_false, Option.some.injEq] at hs
      subst hs
      refine ⟨⟨?_, ?_, ?_, ?_, ?_, ?_, ?_, ?_, ?_, ?_, ?_, ?_⟩, ?_, ?_, ?_⟩ <;>
      (try simp only [arrived, leaving, cnt, hc, count_map_cd_release, count_map_es_release,
        reduceCtorEq, if_false, if_true, UINT32_MOD, hft, hff, false_implies, true_implies,
        Nat.add_zero, Nat.sub_zero, phase_wake, implies_true]) <;>
      (first | assumption | omega)
    · cases pc <;> simp only [] at hs <;>
        (try split at hs) <;> (try split at hs) <;>
        (try (simp only [Option.some.injEq, reduceCtorEq] at hs)) <;> (try subst hs) <;>
        (try omega) <;>
        (try (exact absurd rfl hecmp)) <;>
        refine ⟨⟨?_, ?_, ?_, ?_, ?_, ?_, ?_, ?_, ?_, ?_, ?_, ?_⟩, ?_, ?_, ?_⟩ <;>
        (try simp only [arrived, leaving, cnt, hc, count_map_cd_release, count_map_es_release,
          reduceCtorEq, if_false, if_true, UINT32_MOD, hft, hff, false_implies, true_implies,
          Nat.add_zero, Nat.sub_zero, phase_wake, implies_true]) <;>
        (first | assumption | omega)

theorem postInv_worker_last (N : Nat) (s t : State) (i : Nat) (hN : 1 ≤ N)
    (hU : N < UINT32_MOD) (hnb : s.nb_workers = N) (hlen : s.workers.length = N)
    (hl : LockCount s) (h : PostInv s)
    (hpc : s.workers[i]? = some .ecmp) (he : s.nb_workers_egress = s.nb_workers)
    (hs : syncpoint_wait_step s i = some t) :
    (s.mgr ≠ .cdwait → PostInv t ∧ t.mgr = s.mgr ∧
        t.cycle_cd_manager = s.cycle_cd_manager ∧ s.cycle_cd_worker = 0 ∧
        t.cycle_cd_worker = 1) ∧
    (s.mgr = .cdwait → PreInv t ∧ t.nb_workers_egress = t.nb_workers ∧
        t.cycle_cd_worker = 1 ∧ t.cycle_cd_manager = s.cycle_cd_manager ∧
        t.cycle_skipped + 1 = t.nb_workers ∧ t.mgr = .reset_egress ∧
        leaving t = t.nb_workers ∧ s.cycle_cd_worker = 0) := by
  have htot := count_total s.workers
  have hle : holders s ≤ 1 := by rw [hl.workers]; exact wOwned_le _
  simp only [holders, cnt] at hle
  simp only [UINT32_MOD] at hU
  unfold syncpoint_wait_step at hs
  have hc := fun b c => count_set_eq s.workers i _ b c hpc
  have hp := count_pos_get s.workers i _ hpc
  rw [hpc] at hs
  obtain ⟨f, hf1, hft, hff⟩ := flag_as_nat s.ingress_completed
  obtain ⟨q1, q2, q3, q4, q5, q6, q7, q8, q9, q10, q11, q12⟩ := h
  simp only [arrived, leaving, cnt, hft, hff] at q1 q2 q3 q4 q5 q6 q7 q8 q9 q10 q11 q12
  simp only [he, if_true] at hs
  constructor
  · intro hmc
    have hcd : cd_waiting s = s.workers.count .cdwait := by
      simp [cd_waiting, hmc]
    split at hs
    · omega
    · simp only [Option.some.injEq] at hs
      subst hs
      refine ⟨⟨?_, ?_, ?_, ?_, ?_, ?_, ?_, ?_, ?_, ?_, ?_, ?_⟩, ?_, ?_, ?_, ?_⟩ <;>
      (try simp only [arrived, leaving, cnt, hc, count_map_cd_release, count_map_es_release,
        reduceCtorEq, if_false, if_true, UINT32_MOD, hft, hff, false_implies, true_implies,
        Nat.add_zero, Nat.sub_zero, phase_wake, implies_true]) <;>
      (first | assumption | omega)
  · intro hmc
    have hcd : cd_waiting s = 1 + s.workers.count .cdwait := by
      simp [cd_waiting, hmc]
    split at hs
    · simp only [Option.some.injEq] at hs
      subst hs
      simp only [hmc, if_true]
      refine ⟨⟨?_, ?_, ?_, ?_, ?_, ?_, ?_, ?_⟩, ?_, ?_, ?_, ?_, ?_, ?_, ?_⟩ <;>
      (try simp only [arrived, leaving, cnt, hc, count_map_cd_release, count_map_es_release,
        reduceCtorEq, if_false, if_true, UINT32_MOD, hft, hff, false_implies, true_implies,
        Nat.add_zero, Nat.sub_zero, phase_wake, implies_true]) <;>
      (first | assumption | omega)
    · omega

theorem midInv_worker (N : Nat) (s t : State) (i : Nat) (hN : 1 ≤ N)
    (hU : N < UINT32_MOD) (hnb : s.nb_workers = N) (hlen : s.workers.length = N)
    (hl : LockCount s) (h : MidInv s)
    (hm : s.mgr = .reset_completed)
    (hs : syncpoint_wait_step s i = some t) : False := by
  have htot := count_total s.workers
  have hle : holders s ≤ 1 := by rw [hl.workers]; exact wOwned_le _
  have hes : es_waiting s = s.workers.count .eswait := rfl
  simp only [holders, cnt] at hle
  simp only [UINT32_MOD] at hU
  unfold syncpoint_wait_step at hs
  cases hpc : s.workers[i]? with
  | none => simp [hpc] at hs
  | some pc =>
    have hc := fun b c => count_set_eq s.workers i pc b c hpc
    have hp := count_pos_get s.workers i pc hpc
    rw [hpc] at hs
    obtain ⟨m1, hf, m3, m4, m5, m6, m7⟩ := h
    simp only [cnt] at m3
    have hbusy : s.worker_m ≠ none := by
      intro hn
      have hmm := hl.manager
      rw [hn, hm] at hmm
      simp [heldM] at hmm
    cases pc <;> simp only [] at hs <;>
      (try split at hs) <;> (try split at hs) <;>
      (try (simp only [Option.some.injEq, reduceCtorEq] at hs)) <;>
      (first | omega | contradiction)

theorem phaseInv_worker (N : Nat) (s t : State) (i : Nat) (hN : 1 ≤ N)
    (hU : N < UINT32_MOD) (hnb : s.nb_workers = N) (hlen : s.workers.length = N)
    (hl : LockCount s) (h : PhaseInv s)
    (hs : syncpoint_wait_step s i = some t) : PhaseInv t := by
  cases hph : phase s.mgr <;> simp only [PhaseInv, hph] at h
  case gather =>
    obtain ⟨a1, a2, a3, a4, a5, a6, a7, a8⟩ :=
      preInv_worker N s t i hN hU hnb hlen hl h.1 hs
    simp only [PhaseInv, a6, hph]
    exact ⟨a1, a2.trans h.2.1, ⟨a3.trans h.2.2.1, a4.trans h.2.2.2, a5.trans h.2.2.3⟩⟩
  case sealed =>
    obtain ⟨a1, a2, a3, a4, a5, a6, a7, a8⟩ :=
      preInv_worker N s t i hN hU hnb hlen hl h.1 hs
    simp only [PhaseInv, a6, hph]
    exact ⟨a1, a2.trans h.2.1, ⟨a3.trans h.2.2.1.1, a4.trans h.2.2.1.2, a5.trans h.2.2.1.3⟩,
      a7 h.2.2.2⟩
  case finish =>
    obtain ⟨a1, a2, a3, a4, a5, a6, a7, a8⟩ :=
      preInv_worker N s t i hN hU hnb hlen hl h.1 hs
    simp only [PhaseInv, a6, hph]
    obtain ⟨-, b2, b3, b4, b5⟩ := h
    exact ⟨a1, by omega, by omega, by omega, by omega⟩
  case midreset =>
    have hm : s.mgr = .reset_completed := by
      cases hmm : s.mgr <;> rw [hmm] at hph <;> simp [phase] at hph
    exact (midInv_worker N s t i hN hU hnb hlen hl h hm hs).elim
  case release =>
    have hmc : s.mgr ≠ .cdwait := by
      intro hm; rw [hm] at hph; simp [phase] at hph
    by_cases hlast : s.workers[i]? = some .ecmp ∧ s.nb_workers_egress = s.nb_workers
    · obtain ⟨a1, a2, a3, -, -⟩ :=
        (postInv_worker_last N s t i hN hU hnb hlen hl h.1 hlast.1 hlast.2 hs).1 hmc
      simp only [PhaseInv, a2, hph]
      exact ⟨a1, a3.trans h.2⟩
    · obtain ⟨a1, a2, a3, a4⟩ := postInv_worker N s t i hN hU hnb hlen hl h.1 hlast hs
      simp only [PhaseInv, a2, hph]
      exact ⟨a1, a3.trans h.2⟩
  case drain =>
    have hmc : s.mgr = .cdwait := (phase_drain _).mp hph
    by_cases hlast : s.workers[i]? = some .ecmp ∧ s.nb_workers_egress = s.nb_workers
    · obtain ⟨a1, a2, a3, a4, a5, a6, -, -⟩ :=
        (postInv_worker_last N s t i hN hU hnb hlen hl h.1 hlast.1 hlast.2 hs).2 hmc
      simp only [PhaseInv, a6, phase]
      exact ⟨a1, a2, a3, a4.trans h.2.1, a5⟩
    · obtain ⟨a1, a2, a3, a4⟩ := postInv_worker N s t i hN hU hnb hlen hl h.1 hlast hs
      simp only [PhaseInv, a2, hph]
      exact ⟨a1, a3.trans h.2.1, a4.trans h.2.2⟩

end Syncpoint

namespace Syncpoint

/-! ## The phase invariant is preserved by the other steps -/

theorem preInv_congr (s t : State) (h1 : t.workers = s.workers)
    (h2 : t.nb_workers_ingress = s.nb_workers_ingress) (h3 : t.nb_workers = s.nb_workers)
    (h4 : t.ingress_completed = s.ingress_completed) (h : PreInv s) : PreInv t := by
  obtain ⟨p1, p2, p3, p4, p5, p6, p7, p8⟩ := h
  simp only [arrived, leaving, cnt] at p1 p2 p3 p4 p5 p6 p7 p8
  refine ⟨?_, ?_, ?_, ?_, ?_, ?_, ?_, ?_⟩ <;>
    simp only [arrived, leaving, cnt, h1, h2, h3, h4] <;> assumption

theorem postInv_congr (s t : State) (h1 : t.workers = s.workers)
    (h2 : t.nb_workers_ingress = s.nb_workers_ingress) (h3 : t.nb_workers = s.nb_workers)
    (h4 : t.ingress_completed = s.ingress_completed)
    (h5 : t.nb_workers_egress = s.nb_workers_egress)
    (h6 : t.cycle_cd_worker = s.cycle_cd_worker) (h7 : t.cycle_skipped = s.cycle_skipped)
    (h : PostInv s) : PostInv t := by
  obtain ⟨q1, q2, q3, q4, q5, q6, q7, q8, q9, q10, q11, q12⟩ := h
  simp only [arrived, leaving, cnt] at q1 q2 q3 q4 q5 q6 q7 q8 q9 q10 q11 q12
  refine ⟨?_, ?_, ?_, ?_, ?_, ?_, ?_, ?_, ?_, ?_, ?_, ?_⟩ <;>
    simp only [arrived, leaving, cnt, h1, h2, h3, h4, h5, h6, h7] <;> assumption

theorem phaseInv_congr (s t : State) (h0 : phase t.mgr = phase s.mgr)
    (h1 : t.workers = s.workers)
    (h2 : t.nb_workers_ingress = s.nb_workers_ingress) (h3 : t.nb_workers = s.nb_workers)
    (h4 : t.ingress_completed = s.ingress_completed)
    (h5 : t.nb_workers_egress = s.nb_workers_egress)
    (h6 : t.cycle_cd_worker = s.cycle_cd_worker) (h7 : t.cycle_skipped = s.cycle_skipped)
    (h8 : t.cycle_cd_manager = s.cycle_cd_manager)
    (h : PhaseInv s) : PhaseInv t := by
  unfold PhaseInv at h ⊢
  rw [h0]
  cases hph : phase s.mgr <;> simp only [hph] at h ⊢
  · exact ⟨preInv_congr s t h1 h2 h3 h4 h.1, h5.trans h.2.1,
      ⟨h6.trans h.2.2.1, h8.trans h.2.2.2, h7.trans h.2.2.3⟩⟩
  · exact ⟨preInv_congr s t h1 h2 h3 h4 h.1, h5.trans h.2.1,
      ⟨h6.trans h.2.2.1.1, h8.trans h.2.2.1.2, h7.trans h.2.2.1.3⟩, h4.trans h.2.2.2⟩
  · obtain ⟨m1, m2, m3, m4, m5, m6, m7⟩ := h
    simp only [cnt] at m3
    refine ⟨?_, ?_, ?_, ?_, ?_, ?_, ?_⟩ <;>
      simp only [cnt, h1, h2, h3, h4, h5, h6, h7, h8] <;> assumption
  · exact ⟨postInv_congr s t h1 h2 h3 h4 h5 h6 h7 h.1, h8.trans h.2⟩
  · refine ⟨postInv_congr s t h1 h2 h3 h4 h5 h6 h7 h.1, h8.trans h.2.1, ?_⟩
    simp only [cnt, h1]
    exact h.2.2
  · obtain ⟨a, b, c, d, e⟩ := h
    refine ⟨preInv_congr s t h1 h2 h3 h4 a, ?_, ?_, ?_, ?_⟩ <;>
      simp only [h3, h5, h6, h7, h8] <;> assumption

set_option maxHeartbeats 1000000 in
theorem phaseInv_manager (N : Nat) (s t : State) (hN : 1 ≤ N)
    (hU : N < UINT32_MOD) (hnb : s.nb_workers = N) (hlen : s.workers.length = N)
    (hl : LockCount s) (h : PhaseInv s)
    (hs : syncpoint_cont_step s = some t) : PhaseInv t := by
  have htot := count_total s.workers
  have hle : holders s ≤ 1 := by rw [hl.workers]; exact wOwned_le _
  have hmh : heldM s.mgr = true → holders s = 0 := by
    intro hm
    rw [hl.workers]
    exact wOwned_of_mOwned _ (hl.manager ▸ hm)
  simp only [holders, cnt] at hle hmh
  obtain ⟨f, hf1, hft, hff⟩ := flag_as_nat s.ingress_completed
  unfold syncpoint_cont_step at hs
  have h0 := h
  cases hm : s.mgr <;> simp only [hm, reduceCtorEq] at hs <;>
    simp only [PhaseInv, hm, phase] at h <;>
    simp only [hm, heldM, reduceCtorEq, forall_const, false_implies] at hmh
  case wtest c =>
    obtain ⟨⟨p1, p2, p3, p4, p5, p6, p7, p8⟩, he, ⟨g1, g2, g3⟩⟩ := h
    split at hs <;> simp only [Option.some.injEq] at hs <;> subst hs
    · exact phaseInv_congr s _ (by simp only [hm, phase]) rfl rfl rfl rfl rfl rfl rfl rfl h0
    · rename_i hfl
      simp only [Bool.not_eq_false] at hfl
      simp only [PhaseInv, phase]
      exact ⟨preInv_congr s _ rfl rfl rfl rfl ⟨p1, p2, p3, p4, p5, p6, p7, p8⟩, he,
        ⟨g1, g2, g3⟩, hfl⟩
  case wtowait c =>
    simp only [Option.some.injEq] at hs
    subst hs
    exact phaseInv_congr s _ (by simp only [hm, phase]) rfl rfl rfl rfl rfl rfl rfl rfl h0
  case wwoken c =>
    split at hs
    · simp only [Option.some.injEq] at hs
      subst hs
      exact phaseInv_congr s _ (by simp only [hm, phase]) rfl rfl rfl rfl rfl rfl rfl rfl h0
    · simp at hs
  case wunlock c =>
    simp only [Option.some.injEq] at hs
    subst hs
    cases c
    · simp only [PhaseInv, phase, Bool.false_eq_true, if_false]
      exact ⟨preInv_congr s _ rfl rfl rfl rfl h.1, h.2.1, ⟨h.2.2.1.1, h.2.2.1.2, h.2.2.1.3⟩⟩
    · exact phaseInv_congr s _ (by simp only [hm, phase, if_true]) rfl rfl rfl rfl rfl rfl
        rfl rfl h0
  case lock =>
    split at hs
    · simp only [Option.some.injEq] at hs
      subst hs
      exact phaseInv_congr s _ (by simp only [hm, phase]) rfl rfl rfl rfl rfl rfl rfl rfl h0
    · simp at hs
  case reset_ingress =>
    simp only [Option.some.injEq] at hs
    subst hs
    obtain ⟨⟨p1, p2, p3, p4, p5, p6, p7, p8⟩, he, ⟨g1, g2, g3⟩, hfl⟩ := h
    simp only [arrived, leaving, cnt, hft, hff] at p1 p2 p3 p4 p5 p6 p7 p8
    have hf' := hft.mp hfl
    simp only [PhaseInv, phase]
    refine ⟨?_, ?_, ?_, ?_, ?_, ?_, ?_⟩ <;>
      (try simp only [cnt]) <;> (first | assumption | omega | rfl)
  case reset_completed =>
    simp only [Option.some.injEq] at hs
    subst hs
    obtain ⟨m1, hfl, m3, m4, m5, m6, m7⟩ := h
    simp only [cnt] at m3
    simp only [PhaseInv, phase]
    refine ⟨⟨?_, ?_, ?_, ?_, ?_, ?_, ?_, ?_, ?_, ?_, ?_, ?_⟩, ?_⟩ <;>
      (try simp only [cnt, leaving]) <;> (first | assumption | omega | rfl)
  case bcast =>
    simp only [Option.some.injEq] at hs
    subst hs
    obtain ⟨⟨q1, q2, q3, q4, q5, q6, q7, q8, q9, q10, q11, q12⟩, g2⟩ := h
    simp only [arrived, leaving, cnt, hft, hff] at q1 q2 q3 q4 q5 q6 q7 q8 q9 q10 q11 q12
    simp only [PhaseInv, phase]
    refine ⟨⟨?_, ?_, ?_, ?_, ?_, ?_, ?_, ?_, ?_, ?_, ?_, ?_⟩, ?_⟩ <;>
      (try simp only [cnt, leaving, count_map_wake_worker, reduceCtorEq, if_false, if_true,
        hft, hff]) <;>
      (first | assumption | omega | rfl)
  case unlock =>
    simp only [Option.some.injEq] at hs
    subst hs
    exact phaseInv_congr s _ (by simp only [hm, phase]) rfl rfl rfl rfl rfl rfl rfl rfl h0
  case cdenter =>
    have hcd : cd_waiting s = s.workers.count .cdwait := by
      simp [cd_waiting, hm]
    obtain ⟨⟨q1, q2, q3, q4, q5, q6, q7, q8, q9, q10, q11, q12⟩, g2⟩ := h
    simp only [arrived, leaving, cnt, hft, hff] at q1 q2 q3 q4 q5 q6 q7 q8 q9 q10 q11 q12
    split at hs <;> simp only [Option.some.injEq] at hs <;> subst hs <;>
      simp only [PhaseInv, phase]
    · refine ⟨⟨?_, ?_, ?_, ?_, ?_, ?_, ?_, ?_⟩, ?_, ?_, ?_, ?_⟩ <;>
        (try simp only [cnt, arrived, leaving, count_map_cd_release, reduceCtorEq, if_false,
          if_true, hft, hff]) <;>
        (first | assumption | omega | rfl)
    · refine ⟨⟨?_, ?_, ?_, ?_, ?_, ?_, ?_, ?_, ?_, ?_, ?_, ?_⟩, ?_, ?_⟩ <;>
        (try simp only [cnt, arrived, leaving, hft, hff]) <;>
        (first | assumption | omega | rfl)
  case reset_egress =>
    simp only [Option.some.injEq] at hs
    subst hs
    obtain ⟨⟨p1, p2, p3, p4, p5, p6, p7, p8⟩, he, g1, g2, g3⟩ := h
    show PreInv _ ∧ _ ∧ Ghost0 _
    exact ⟨preInv_congr s _ rfl rfl rfl rfl ⟨p1, p2, p3, p4, p5, p6, p7, p8⟩, rfl,
      ⟨rfl, rfl, rfl⟩⟩

theorem phaseInv_step (N K : Nat) (s t : State) (l : Label) (hN : 1 ≤ N)
    (hU : N < UINT32_MOD) (hsh : Shape N K s) (hl : LockCount s) (h : PhaseInv s)
    (hs : step s l = some t) : PhaseInv t := by
  cases l with
  | worker i => exact phaseInv_worker N s t i hN hU hsh.nb hsh.wlen hl h hs
  | worker_spurious i =>
    simp only [step] at hs
    split at hs
    · rename_i hpc
      simp only [Option.some.injEq] at hs
      subst hs
      have hc := fun b c => count_set_eq s.workers i _ b c hpc
      have hp := count_pos_get s.workers i _ hpc
      obtain ⟨f, hf1, hft, hff⟩ := flag_as_nat s.ingress_completed
      cases hph : phase s.mgr <;> simp only [PhaseInv, hph] at h ⊢
      case gather =>
        obtain ⟨⟨p1, p2, p3, p4, p5, p6, p7, p8⟩, he, ⟨g1, g2, g3⟩⟩ := h
        simp only [arrived, leaving, cnt, hft, hff] at p1 p2 p3 p4 p5 p6 p7 p8
        refine ⟨⟨?_, ?_, ?_, ?_, ?_, ?_, ?_, ?_⟩, ?_, ⟨?_, ?_, ?_⟩⟩ <;>
          (try simp only [cnt, arrived, leaving, hc, reduceCtorEq, if_false, if_true,
            hft, hff, Nat.add_zero, Nat.sub_zero]) <;>
          (first | assumption | omega)
      case sealed =>
        obtain ⟨⟨p1, p2, p3, p4, p5, p6, p7, p8⟩, he, ⟨g1, g2, g3⟩, hfl⟩ := h
        simp only [arrived, leaving, cnt, hft, hff] at p1 p2 p3 p4 p5 p6 p7 p8
        have hf' := hft.mp hfl
        refine ⟨⟨?_, ?_, ?_, ?_, ?_, ?_, ?_, ?_⟩, ?_, ⟨?_, ?_, ?_⟩, ?_⟩ <;>
          (try simp only [cnt, arrived, leaving, hc, reduceCtorEq, if_false, if_true,
            hft, hff, Nat.add_zero, Nat.sub_zero]) <;>
          (first | assumption | omega)
      case finish =>
        obtain ⟨⟨p1, p2, p3, p4, p5, p6, p7, p8⟩, he, g1, g2, g3⟩ := h
        simp only [arrived, leaving, cnt, hft, hff] at p1 p2 p3 p4 p5 p6 p7 p8
        refine ⟨⟨?_, ?_, ?_, ?_, ?_, ?_, ?_, ?_⟩, ?_, ?_, ?_, ?_⟩ <;>
          (try simp only [cnt, arrived, leaving, hc, reduceCtorEq, if_false, if_true,
            hft, hff, Nat.add_zero, Nat.sub_zero]) <;>
          (first | assumption | omega)
      case midreset =>
        obtain ⟨m1, hfl, m3, m4, m5, m6, m7⟩ := h
        simp only [cnt] at m3
        refine ⟨?_, ?_, ?_, ?_, ?_, ?_, ?_⟩ <;>
          (try simp only [cnt, hc, reduceCtorEq, if_false, if_true,
            Nat.add_zero, Nat.sub_zero]) <;>
          (first | assumption | omega)
      case release =>
        obtain ⟨⟨q1, q2, q3, q4, q5, q6, q7, q8, q9, q10, q11, q12⟩, g2⟩ := h
        simp only [arrived, leaving, cnt, hft, hff] at q1 q2 q3 q4 q5 q6 q7 q8 q9 q10 q11 q12
        refine ⟨⟨?_, ?_, ?_, ?_, ?_, ?_, ?_, ?_, ?_, ?_, ?_, ?_⟩, ?_⟩ <;>
          (try simp only [cnt, arrived, leaving, hc, reduceCtorEq, if_false, if_true,
            hft, hff, Nat.add_zero, Nat.sub_zero]) <;>
          (first | assumption | omega)
      case drain =>
        obtain ⟨⟨q1, q2, q3, q4, q5, q6, q7, q8, q9, q10, q11, q12⟩, g2, g4⟩ := h
        simp only [arrived, leaving, cnt, hft, hff] at q1 q2 q3 q4 q5 q6 q7 q8 q9 q10 q11 q12 g4
        refine ⟨⟨?_, ?_, ?_, ?_, ?_, ?_, ?_, ?_, ?_, ?_, ?_, ?_⟩, ?_, ?_⟩ <;>
          (try simp only [cnt, arrived, leaving, hc, reduceCtorEq, if_false, if_true,
            hft, hff, Nat.add_zero, Nat.sub_zero]) <;>
          (first | assumption | omega)
    · simp at hs
  | observer j =>
    simp only [step] at hs
    unfold syncpoint_wait_all_stopped_step at hs
    cases hpc : s.observers[j]? with
    | none => simp [hpc] at hs
    | some pc =>
      rw [hpc] at hs
      cases pc <;> simp only [] at hs <;> (try split at hs) <;>
        (try (simp only [Option.some.injEq, reduceCtorEq] at hs)) <;> (try subst hs) <;>
        exact phaseInv_congr s _ rfl rfl rfl rfl rfl rfl rfl rfl rfl h
  | observer_spurious j =>
    simp only [step] at hs
    split at hs
    · simp only [Option.some.injEq] at hs
      subst hs
      exact phaseInv_congr s _ rfl rfl rfl rfl rfl rfl rfl rfl rfl h
    · simp at hs
  | call_wait_all_stopped =>
    simp only [step, manager_call] at hs
    split at hs
    · rename_i hc
      simp only [Option.some.injEq] at hs
      subst hs
      exact phaseInv_congr s _ (by simp only [hc.1, phase]) rfl rfl rfl rfl rfl rfl rfl rfl h
    · simp at hs
  | call_cont =>
    simp only [step, manager_call] at hs
    split at hs
    · rename_i hc
      simp only [Option.some.injEq] at hs
      subst hs
      exact phaseInv_congr s _ (by simp only [hc.1, phase]) rfl rfl rfl rfl rfl rfl rfl rfl h
    · simp at hs
  | manager => exact phaseInv_manager N s t hN hU hsh.nb hsh.wlen hl h hs
  | manager_spurious =>
    simp only [step] at hs
    split at hs
    · rename_i c hm
      simp only [Option.some.injEq] at hs
      subst hs
      exact phaseInv_congr s _ (by simp only [hm, phase]) rfl rfl rfl rfl rfl rfl rfl rfl h
    · simp at hs

end Syncpoint

namespace Syncpoint

/-! ## The invariant holds in every reachable state -/

theorem count_replicate_idle (n : Nat) (c : WPc) :
    (List.replicate n WPc.idle).count c = if c = .idle then n else 0 := by
  rw [List.count_replicate]
  cases c <;> simp

theorem inv_init (N K : Nat) (hN : 1 ≤ N) : Inv N K (syncpoint_init N K) := by
  have hc := count_replicate_idle N
  refine ⟨⟨rfl, ?_, ?_⟩, ⟨?_, rfl⟩, ⟨?_, ?_, ?_, ?_, ?_, ?_⟩, ?_⟩
  · simp [syncpoint_init]
  · simp [syncpoint_init]
  · simp [holders, cnt, syncpoint_init, hc]
  · intro i
    simp only [holdsW_def, syncpoint_init, List.getElem?_replicate]
    split <;> simp [heldW]
  · simp [syncpoint_init, heldM]
  · intro j; simp [syncpoint_init]
  · intro j
    simp only [holdsO_def, syncpoint_init, List.getElem?_replicate]
    split <;> simp [heldO]
  · simp [syncpoint_init, heldMC]
  · intro i; simp [syncpoint_init]
  · show PreInv _ ∧ _ ∧ Ghost0 _
    refine ⟨⟨?_, ?_, ?_, ?_, ?_, ?_, ?_, ?_⟩, rfl, ⟨rfl, rfl, rfl⟩⟩ <;>
      simp [arrived, leaving, cnt, syncpoint_init, hc] <;> omega

theorem inv_step (N K : Nat) (hN : 1 ≤ N) (hU : N < UINT32_MOD) (s t : State) (l : Label)
    (h : Inv N K s) (hs : step s l = some t) : Inv N K t :=
  ⟨shape_step N K s t l h.shape hs, lockCount_step s t l h.lock hs,
    owners_step s t l h.owners hs, phaseInv_step N K s t l hN hU h.shape h.lock h.phase hs⟩

theorem reachable_inv (N K : Nat) (hN : 1 ≤ N) (hU : N < UINT32_MOD) (s : State)
    (hr : Reachable N K s) : Inv N K s := by
  induction hr with
  | init => exact inv_init N K hN
  | step s t l _ hs ih => exact inv_step N K hN hU s t l ih hs

theorem reachable_run (N K : Nat) (s t : State) (ls : List Label)
    (hr : Reachable N K s) (h : run s ls = some t) : Reachable N K t := by
  induction ls generalizing s with
  | nil =>
    simp only [run, Option.some.injEq] at h
    exact h ▸ hr
  | cons l ls ih =>
    simp only [run] at h
    cases hs : step s l with
    | none => simp [hs] at h
    | some u =>
      rw [hs] at h
      exact ih u (Reachable.step s u l hr hs) h

theorem reachable_of_run (N K : Nat) (t : State) (ls : List Label)
    (h : run (syncpoint_init N K) ls = some t) : Reachable N K t :=
  reachable_run N K _ t ls Reachable.init h

theorem run_append (s : State) (xs ys : List Label) :
    run s (xs ++ ys) = (run s xs).bind (fun t => run t ys) := by
  induction xs generalizing s with
  | nil => simp [run]
  | cons l ls ih =>
    simp only [List.cons_append, run]
    cases step s l with
    | none => simp
    | some u => simp [ih]

end Syncpoint

namespace Syncpoint

/-! ## Claims about the concurrent embedding -/

theorem exists_get_of_count_pos (ws : List WPc) (c : WPc) (h : 0 < ws.count c) :
    ∃ i : Nat, ws[i]? = some c :=
  List.mem_iff_getElem?.mp (List.count_pos_iff.mp h)

theorem not_mid_update_counts (N K : Nat) (s : State) (h : Inv N K s)
    (hm : mid_update s = false) :
    cnt s .cmp = 0 ∧ cnt s .setflag = 0 ∧ s.mgr ≠ .reset_completed := by
  refine ⟨?_, ?_, ?_⟩
  · by_contra hc
    obtain ⟨i, hi⟩ := exists_get_of_count_pos s.workers .cmp (by unfold cnt at hc; omega)
    have ho : s.worker_m = some (.worker i) := by
      rw [h.owners.w_worker i, holdsW_def, hi]; rfl
    simp [mid_update, ho, hi] at hm
  · by_contra hc
    obtain ⟨i, hi⟩ := exists_get_of_count_pos s.workers .setflag (by unfold cnt at hc; omega)
    have ho : s.worker_m = some (.worker i) := by
      rw [h.owners.w_worker i, holdsW_def, hi]; rfl
    simp [mid_update, ho, hi] at hm
  · intro hc
    have ho : s.worker_m = some .manager := by
      rw [h.owners.w_manager, hc]; rfl
    simp [mid_update, ho, hc] at hm

/-- C1. For every worker count `N ≥ 1` (a `uint32_t`), every state reachable from
`syncpoint_init N` satisfies `nb_workers_ingress ≤ N` and `nb_workers_egress ≤ N`,
and, whenever the primary mutex is not owned by a thread in the middle of an
update, `ingress_completed` is true exactly when `nb_workers_ingress = N`. -/
theorem counters_bounded_and_flag_iff_full (N K : Nat) (hN : 1 ≤ N) (hU : N < UINT32_MOD)
    (s : State) (hr : Reachable N K s) :
    s.nb_workers = N ∧ s.nb_workers_ingress ≤ N ∧ s.nb_workers_egress ≤ N ∧
      (mid_update s = false → (s.ingress_completed = true ↔ s.nb_workers_ingress = N)) := by
  have h := reachable_inv N K hN hU s hr
  have htot := count_total s.workers
  have hnb := h.shape.nb
  have hlen := h.shape.wlen
  obtain ⟨f, hf1, hft, hff⟩ := flag_as_nat s.ingress_completed
  have hph := h.phase
  have hmid := not_mid_update_counts N K s h
  simp only [cnt] at hmid
  cases hp : phase s.mgr <;> simp only [PhaseInv, hp] at hph
  case gather =>
    obtain ⟨⟨p1, p2, p3, p4, p5, p6, p7, p8⟩, he, -⟩ := hph
    simp only [arrived, leaving, cnt, hft, hff] at p1 p2 p3 p4 p5 p6 p7 p8
    refine ⟨hnb, by omega, by omega, ?_⟩
    intro hm
    obtain ⟨c1, c2, -⟩ := hmid hm
    rw [hft]
    omega
  case sealed =>
    obtain ⟨⟨p1, p2, p3, p4, p5, p6, p7, p8⟩, he, -⟩ := hph
    simp only [arrived, leaving, cnt, hft, hff] at p1 p2 p3 p4 p5 p6 p7 p8
    refine ⟨hnb, by omega, by omega, ?_⟩
    intro hm
    obtain ⟨c1, c2, -⟩ := hmid hm
    rw [hft]
    omega
  case finish =>
    obtain ⟨⟨p1, p2, p3, p4, p5, p6, p7, p8⟩, he, -⟩ := hph
    simp only [arrived, leaving, cnt, hft, hff] at p1 p2 p3 p4 p5 p6 p7 p8
    refine ⟨hnb, by omega, by omega, ?_⟩
    intro hm
    obtain ⟨c1, c2, -⟩ := hmid hm
    rw [hft]
    omega
  case midreset =>
    obtain ⟨m1, m2, m3, m4, -⟩ := hph
    refine ⟨hnb, by omega, by omega, ?_⟩
    intro hm
    have hmgr : s.mgr = .reset_completed := by
      cases hmm : s.mgr <;> rw [hmm] at hp <;> simp [phase] at hp
    exact absurd hmgr (hmid hm).2.2
  case release =>
    obtain ⟨⟨q1, q2, q3, q4, q5, q6, q7, q8, q9, q10, q11, q12⟩, -⟩ := hph
    simp only [arrived, leaving, cnt, hft, hff] at q1 q2 q3 q4 q5 q6 q7 q8 q9 q10 q11 q12
    refine ⟨hnb, by omega, by omega, ?_⟩
    intro _
    rw [hft]
    omega
  case drain =>
    obtain ⟨⟨q1, q2, q3, q4, q5, q6, q7, q8, q9, q10, q11, q12⟩, -⟩ := hph
    simp only [arrived, leaving, cnt, hft, hff] at q1 q2 q3 q4 q5 q6 q7 q8 q9 q10 q11 q12
    refine ⟨hnb, by omega, by omega, ?_⟩
    intro _
    rw [hft]
    omega

theorem not_mem_of_count_zero (ws : List WPc) (c : WPc) (h : ws.count c = 0) : c ∉ ws :=
  List.count_eq_zero.mp h

/-- C10. In every reachable state: `nb_workers_egress ≤ N`; since the last
execution of l.130 at most one worker and at most once the manager have called
`pthread_barrier_wait(&continue_done)`, and at most one thread is blocked in
it; when the manager has left that barrier (it is about to execute l.130)
exactly one worker call, one manager call and `N - 1` skipping evaluations of
l.206 have happened in the cycle; and a worker evaluating l.206 enters the
rendezvous exactly when it reads `nb_workers_egress == nb_workers`, which is
then the first entry of the cycle. -/
theorem drain_rendezvous_entered_once_per_cycle (N K : Nat) (hN : 1 ≤ N)
    (hU : N < UINT32_MOD) (s : State) (hr : Reachable N K s) :
    s.nb_workers_egress ≤ N ∧ s.cycle_cd_worker ≤ 1 ∧ s.cycle_cd_manager ≤ 1 ∧
      cd_waiting s ≤ 1 ∧
      (s.mgr = .reset_egress →
        s.cycle_cd_worker = 1 ∧ s.cycle_cd_manager = 1 ∧ s.cycle_skipped + 1 = N) ∧
      (∀ i t, s.workers[i]? = some .ecmp → step s (.worker i) = some t →
        if s.nb_workers_egress = N then
          s.cycle_cd_worker = 0 ∧ t.cycle_cd_worker = 1 ∧ t.cycle_skipped = s.cycle_skipped
        else
          t.cycle_cd_worker = s.cycle_cd_worker ∧ t.cycle_skipped = s.cycle_skipped + 1 ∧
            t.workers[i]? = some .unlock) := by
  have h := reachable_inv N K hN hU s hr
  have htot := count_total s.workers
  have hnb := h.shape.nb
  have hlen := h.shape.wlen
  have hle : holders s ≤ 1 := by rw [h.lock.workers]; exact wOwned_le _
  simp only [holders, cnt] at hle
  have hph := h.phase
  have hstep : ∀ i t, s.workers[i]? = some .ecmp → step s (.worker i) = some t →
      s.nb_workers_egress ≠ N →
        t.cycle_cd_worker = s.cycle_cd_worker ∧ t.cycle_skipped = s.cycle_skipped + 1 ∧
          t.workers[i]? = some .unlock := by
    intro i t hi hs hne
    have hlt : i < s.workers.length := (List.getElem?_eq_some.mp hi).1
    simp only [step, syncpoint_wait_step, hi, hnb, hne, if_false, Option.some.injEq] at hs
    subst hs
    simp [hlt]
  cases hp : phase s.mgr <;> simp only [PhaseInv, hp] at hph
  case gather =>
    obtain ⟨⟨p1, p2, p3, p4, p5, p6, p7, p8⟩, he, ⟨g1, g2, g3⟩⟩ := hph
    simp only [cnt] at p2 p3
    have hmc : s.mgr ≠ .cdwait := by intro hm; rw [hm] at hp; simp [phase] at hp
    refine ⟨by omega, by omega, by omega, by simp [cd_waiting, hmc]; omega, ?_, ?_⟩
    · intro hm; rw [hm] at hp; simp [phase] at hp
    · intro i t hi
      have := count_pos_get s.workers i _ hi
      omega
  case sealed =>
    obtain ⟨⟨p1, p2, p3, p4, p5, p6, p7, p8⟩, he, ⟨g1, g2, g3⟩, -⟩ := hph
    simp only [cnt] at p2 p3
    have hmc : s.mgr ≠ .cdwait := by intro hm; rw [hm] at hp; simp [phase] at hp
    refine ⟨by omega, by omega, by omega, by simp [cd_waiting, hmc]; omega, ?_, ?_⟩
    · intro hm; rw [hm] at hp; simp [phase] at hp
    · intro i t hi
      have := count_pos_get s.workers i _ hi
      omega
  case finish =>
    obtain ⟨⟨p1, p2, p3, p4, p5, p6, p7, p8⟩, he, g1, g2, g3⟩ := hph
    simp only [cnt] at p2 p3
    have hmc : s.mgr ≠ .cdwait := by intro hm; rw [hm] at hp; simp [phase] at hp
    refine ⟨by omega, by omega, by omega, by simp [cd_waiting, hmc]; omega, ?_, ?_⟩
    · intro _; exact ⟨g1, g2, by omega⟩
    · intro i t hi
      have := count_pos_get s.workers i _ hi
      omega
  case midreset =>
    obtain ⟨m1, m2, m3, m4, m5, m6, m7⟩ := hph
    simp only [cnt] at m3
    have hmc : s.mgr ≠ .cdwait := by intro hm; rw [hm] at hp; simp [phase] at hp
    refine ⟨by omega, by omega, by omega, by simp [cd_waiting, hmc]; omega, ?_, ?_⟩
    · intro hm; rw [hm] at hp; simp [phase] at hp
    · intro i t hi
      have := count_pos_get s.workers i _ hi
      omega
  case release =>
    obtain ⟨⟨q1, q2, q3, q4, q5, q6, q7, q8, q9, q10, q11, q12⟩, g2⟩ := hph
    simp only [arrived, leaving, cnt] at q1 q2 q3 q4 q5 q6 q7 q8 q9 q10 q11 q12
    have hmc : s.mgr ≠ .cdwait := by intro hm; rw [hm] at hp; simp [phase] at hp
    refine ⟨by omega, by omega, by omega, by simp [cd_waiting, hmc]; omega, ?_, ?_⟩
    · intro hm; rw [hm] at hp; simp [phase] at hp
    · intro i t hi hs
      have hpos := count_pos_get s.workers i _ hi
      split
      · rename_i heq
        obtain ⟨-, -, -, b1, b2⟩ := (postInv_worker_last N s t i hN hU hnb hlen h.lock
          ⟨q1, q2, q3, q4, q5, q6, q7, q8, q9, q10, q11, q12⟩ hi (heq.trans hnb.symm) hs).1 hmc
        refine ⟨b1, b2, ?_⟩
        have hlt : i < s.workers.length := (List.getElem?_eq_some.mp hi).1
        simp only [step, syncpoint_wait_step, hi, hnb, heq, if_true] at hs
        split at hs <;> simp only [Option.some.injEq] at hs <;> subst hs <;> rfl
      · rename_i hne
        exact hstep i t hi hs hne
  case drain =>
    obtain ⟨⟨q1, q2, q3, q4, q5, q6, q7, q8, q9, q10, q11, q12⟩, g2, g4⟩ := hph
    simp only [arrived, leaving, cnt] at q1 q2 q3 q4 q5 q6 q7 q8 q9 q10 q11 q12 g4
    have hmc : s.mgr = .cdwait := (phase_drain _).mp hp
    refine ⟨by omega, by omega, by omega, by simp [cd_waiting, hmc]; omega, ?_, ?_⟩
    · intro hm; rw [hm] at hmc; simp at hmc
    · intro i t hi hs
      have hpos := count_pos_get s.workers i _ hi
      split
      · rename_i heq
        obtain ⟨-, -, b1, -, -, -, -, b2⟩ := (postInv_worker_last N s t i hN hU hnb hlen
          h.lock ⟨q1, q2, q3, q4, q5, q6, q7, q8, q9, q10, q11, q12⟩ hi (heq.trans hnb.symm)
          hs).2 hmc
        refine ⟨b2, b1, ?_⟩
        have hlt : i < s.workers.length := (List.getElem?_eq_some.mp hi).1
        simp only [step, syncpoint_wait_step, hi, hnb, heq, if_true] at hs
        split at hs <;> simp only [Option.some.injEq] at hs <;> subst hs <;> rfl
      · rename_i hne
        exact hstep i t hi hs hne

/-- C7 (as amended). In every reachable state a thread blocked in a barrier never
owns the secondary mutex, and it owns the primary mutex exactly when it is a
worker blocked in `continue_done` (l.208): the last departing worker keeps
`worker_wait.sync.m` while it waits there, whereas the manager blocked in
`continue_done` and the workers blocked in `egress_sync` own no mutex. -/
theorem barrier_waiter_owns_at_most_primary_in_continue_done (N K : Nat) (hN : 1 ≤ N)
    (hU : N < UINT32_MOD) (s : State) (hr : Reachable N K s) (tid : Tid)
    (hb : blocked_in_barrier s tid = true) :
    s.client_m ≠ some tid ∧
      (s.worker_m = some tid ↔ ∃ i, tid = .worker i ∧ s.workers[i]? = some .cdwait) := by
  have h := (reachable_inv N K hN hU s hr).owners
  cases tid with
  | manager =>
    simp only [blocked_in_barrier, decide_eq_true_eq] at hb
    refine ⟨?_, ?_, ?_⟩
    · rw [Ne, h.c_manager, hb]; simp [heldMC]
    · intro hw
      rw [h.w_manager, hb] at hw
      simp [heldM] at hw
    · rintro ⟨i, hi, -⟩
      simp at hi
  | worker i =>
    simp only [blocked_in_barrier, Bool.or_eq_true, decide_eq_true_eq] at hb
    refine ⟨h.c_worker i, ?_, ?_⟩
    · intro hw
      rcases hb with hb | hb
      · exact ⟨i, rfl, hb⟩
      · rw [h.w_worker i, holdsW_def, hb] at hw
        simp [heldW] at hw
    · rintro ⟨k, hk, hc⟩
      simp only [Tid.worker.injEq] at hk
      subst hk
      rw [h.w_worker i, holdsW_def, hc]
      rfl
  | observer j => simp [blocked_in_barrier] at hb

end Syncpoint

namespace Syncpoint

theorem all_arrived_of_count (ws : List WPc)
    (h : ws.count .bcast + ws.count .loop + ws.count .blocked + ws.count .woken = ws.length) :
    ws.all arrivedPc = true := by
  induction ws with
  | nil => rfl
  | cons x xs ih =>
    have htot := count_total xs
    cases x <;> simp [List.count_cons, arrivedPc] at h ⊢ <;>
      first
        | omega
        | (apply List.all_eq_true.mp; apply ih; omega)

theorem all_leaving_of_count (ws : List WPc)
    (h : ws.count .unlock + ws.count .esenter + ws.count .eswait = ws.length) :
    ws.all leavingPc = true := by
  induction ws with
  | nil => rfl
  | cons x xs ih =>
    have htot := count_total xs
    cases x <;> simp [List.count_cons, leavingPc] at h ⊢ <;>
      first
        | omega
        | (apply List.all_eq_true.mp; apply ih; omega)

/-- C2 (as amended). A thread can leave the wait loop of
`syncpoint_wait_all_stopped` only in a state where `ingress_completed` is true,
and in every such state each of the `N` workers has performed its ingress
increment of the current cycle and is still inside the arrival wait;
`nb_workers_ingress` is then `N`, except between l.107 and l.108 of the
manager, where it is already `0`. -/
theorem wait_loop_left_only_after_all_increments (N K : Nat) (hN : 1 ≤ N)
    (hU : N < UINT32_MOD) (s t : State) (l : Label) (hr : Reachable N K s)
    (hs : step s l = some t) (hl : leaves_wait_loop s t l = true) :
    s.ingress_completed = true ∧ s.workers.length = N ∧ all_arrived s = true ∧
      (s.nb_workers_ingress = N ∨
        (s.nb_workers_ingress = 0 ∧ s.mgr = .reset_completed)) := by
  have h := reachable_inv N K hN hU s hr
  have htot := count_total s.workers
  have hnb := h.shape.nb
  have hlen := h.shape.wlen
  have hflag : s.ingress_completed = true := by
    cases l with
    | observer j =>
      simp only [leaves_wait_loop, Bool.and_eq_true, decide_eq_true_eq] at hl
      obtain ⟨h1, h2⟩ := hl
      have hlt : j < s.observers.length := (List.getElem?_eq_some.mp h1).1
      simp only [step, syncpoint_wait_all_stopped_step, h1] at hs
      split at hs
      · simp only [Option.some.injEq] at hs
        subst hs
        simp [hlt] at h2
      · rename_i hf
        simpa using hf
    | manager =>
      simp only [leaves_wait_loop] at hl
      split at hl
      · rename_i c d hc hd
        simp only [step, syncpoint_cont_step, hc] at hs
        split at hs
        · simp only [Option.some.injEq] at hs
          subst hs
          simp at hd
        · rename_i hf
          simpa using hf
      · simp at hl
    | worker i => simp [leaves_wait_loop] at hl
    | worker_spurious i => simp [leaves_wait_loop] at hl
    | observer_spurious j => simp [leaves_wait_loop] at hl
    | call_wait_all_stopped => simp [leaves_wait_loop] at hl
    | call_cont => simp [leaves_wait_loop] at hl
    | manager_spurious => simp [leaves_wait_loop] at hl
  refine ⟨hflag, hlen, ?_⟩
  have hph := h.phase
  cases hp : phase s.mgr <;> simp only [PhaseInv, hp] at hph
  case gather =>
    obtain ⟨⟨p1, p2, p3, p4, p5, p6, p7, p8⟩, -⟩ := hph
    have := p6 hflag
    simp only [arrived, leaving, cnt] at p1 p2 p3 p4 p5 this
    exact ⟨all_arrived_of_count _ (by omega), Or.inl (by omega)⟩
  case sealed =>
    obtain ⟨⟨p1, p2, p3, p4, p5, p6, p7, p8⟩, -⟩ := hph
    have := p6 hflag
    simp only [arrived, leaving, cnt] at p1 p2 p3 p4 p5 this
    exact ⟨all_arrived_of_count _ (by omega), Or.inl (by omega)⟩
  case finish =>
    obtain ⟨⟨p1, p2, p3, p4, p5, p6, p7, p8⟩, -⟩ := hph
    have := p6 hflag
    simp only [arrived, leaving, cnt] at p1 p2 p3 p4 p5 this
    exact ⟨all_arrived_of_count _ (by omega), Or.inl (by omega)⟩
  case midreset =>
    obtain ⟨m1, m2, m3, -⟩ := hph
    simp only [cnt] at m3
    have hmgr : s.mgr = .reset_completed := by
      cases hmm : s.mgr <;> rw [hmm] at hp <;> simp [phase] at hp
    exact ⟨all_arrived_of_count _ (by omega), Or.inr ⟨m1, hmgr⟩⟩
  case release =>
    have := hph.1.flag
    rw [hflag] at this
    simp at this
  case drain =>
    have := hph.1.flag
    rw [hflag] at this
    simp at this

theorem manager_passes_cases (s t : State) (l : Label) (hs : step s l = some t)
    (hp : manager_passes_drain s t = true) :
    (l = .manager ∧ s.mgr = .cdenter) ∨
      (∃ i, l = .worker i ∧ s.workers[i]? = some .ecmp ∧ s.mgr = .cdwait ∧
        s.nb_workers_egress = s.nb_workers) := by
  simp only [manager_passes_drain, Bool.and_eq_true, Bool.or_eq_true,
    decide_eq_true_eq] at hp
  obtain ⟨hsm, htm⟩ := hp
  cases l with
  | manager =>
    left
    refine ⟨rfl, ?_⟩
    rcases hsm with hsm | hsm
    · exact hsm
    · simp [step, syncpoint_cont_step, hsm] at hs
  | worker i =>
    right
    refine ⟨i, rfl, ?_⟩
    simp only [step] at hs
    unfold syncpoint_wait_step at hs
    cases hpc : s.workers[i]? with
    | none => simp [hpc] at hs
    | some pc =>
      rw [hpc] at hs
      cases pc <;> simp only [] at hs <;>
        (try split at hs) <;> (try split at hs) <;>
        (try (simp only [Option.some.injEq, reduceCtorEq] at hs)) <;> (try subst hs) <;>
        (rcases hsm with hsm | hsm <;> simp_all [wake_manager])
  | worker_spurious i =>
    simp only [step] at hs
    split at hs
    · simp only [Option.some.injEq] at hs
      subst hs
      rcases hsm with hsm | hsm <;> simp_all
    · simp at hs
  | observer j =>
    simp only [step] at hs
    unfold syncpoint_wait_all_stopped_step at hs
    cases hpc : s.observers[j]? with
    | none => simp [hpc] at hs
    | some pc =>
      rw [hpc] at hs
      cases pc <;> simp only [] at hs <;> (try split at hs) <;>
        (try (simp only [Option.some.injEq, reduceCtorEq] at hs)) <;> (try subst hs) <;>
        (rcases hsm with hsm | hsm <;> simp_all)
  | observer_spurious j =>
    simp only [step] at hs
    split at hs
    · simp only [Option.some.injEq] at hs
      subst hs
      rcases hsm with hsm | hsm <;> simp_all
    · simp at hs
  | call_wait_all_stopped =>
    simp only [step, manager_call] at hs
    split at hs
    · simp only [Option.some.injEq] at hs
      subst hs
      simp at htm
    · simp at hs
  | call_cont =>
    simp only [step, manager_call] at hs
    split at hs
    · simp only [Option.some.injEq] at hs
      subst hs
      simp at htm
    · simp at hs
  | manager_spurious =>
    simp only [step] at hs
    split at hs
    · simp only [Option.some.injEq] at hs
      subst hs
      simp at htm
    · simp at hs

/-- C3. In every reachable state: a step that takes the manager out of
`pthread_barrier_wait(&continue_done)` (l.124) starts and ends with
`nb_workers_egress = nb_workers = N`, and after it every one of the `N` workers
is past its egress increment (l.203) and the test of l.206, none being still in
the arrival wait; and while the manager has left that barrier and not yet
executed l.130 (so `syncpoint_cont` has not returned), `nb_workers_egress = N`. -/
theorem manager_passes_drain_only_when_all_departed (N K : Nat) (hN : 1 ≤ N)
    (hU : N < UINT32_MOD) (s : State) (hr : Reachable N K s) :
    (s.mgr = .reset_egress → s.nb_workers_egress = N) ∧
      (∀ t l, step s l = some t → manager_passes_drain s t = true →
        s.nb_workers_egress = N ∧ t.nb_workers_egress = N ∧ t.workers.length = N ∧
          t.workers.all leavingPc = true) := by
  have h := reachable_inv N K hN hU s hr
  have htot := count_total s.workers
  have hnb := h.shape.nb
  have hlen := h.shape.wlen
  have hle : holders s ≤ 1 := by rw [h.lock.workers]; exact wOwned_le _
  simp only [holders, cnt] at hle
  have hph := h.phase
  constructor
  · intro hm
    simp only [PhaseInv, hm, phase] at hph
    rw [hph.2.1, hnb]
  intro t l hs hp
  have ht := inv_step N K hN hU s t l h hs
  rcases manager_passes_cases s t l hs hp with ⟨hl, hm⟩ | ⟨i, hl, hi, hm, he⟩
  · subst hl
    simp only [PhaseInv, hm, phase] at hph
    obtain ⟨⟨q1, q2, q3, q4, q5, q6, q7, q8, q9, q10, q11, q12⟩, g2⟩ := hph
    simp only [arrived, leaving, cnt] at q1 q2 q3 q4 q5 q6 q7 q8 q9 q10 q11 q12
    have hcd : cd_waiting s = s.workers.count .cdwait := by simp [cd_waiting, hm]
    simp only [step, syncpoint_cont_step, hm] at hs
    split at hs
    · simp only [Option.some.injEq] at hs
      subst hs
      refine ⟨by omega, by simp only; omega, ht.shape.wlen, ?_⟩
      apply all_leaving_of_count
      simp only [count_map_cd_release, reduceCtorEq, if_false, if_true, List.length_map]
      omega
    · simp only [Option.some.injEq] at hs
      subst hs
      simp [manager_passes_drain] at hp
  · subst hl
    have hps : PostInv s := by
      simp only [PhaseInv, hm, phase] at hph
      exact hph.1
    obtain ⟨a1, a2, a3, a4, a5, a6, a7, a8⟩ :=
      (postInv_worker_last N s t i hN hU hnb hlen h.lock hps hi he hs).2 hm
    refine ⟨by omega, by rw [a2]; exact ht.shape.nb, ht.shape.wlen, ?_⟩
    apply all_leaving_of_count
    simp only [leaving, cnt] at a7
    rw [a7, ht.shape.nb, ht.shape.wlen]

end Syncpoint

namespace Syncpoint

/-! ## Cycle numbers -/

theorem traced_step_st (g h : Traced) (l : Label) (hs : traced_step g l = some h) :
    step g.st l = some h.st := by
  unfold traced_step at hs
  cases hst : step g.st l with
  | none => simp [hst] at hs
  | some t =>
    simp only [hst, Option.some.injEq] at hs
    subst hs
    rfl

theorem traced_reachable_st (N K : Nat) (g : Traced) (hr : TracedReachable N K g) :
    Reachable N K g.st := by
  induction hr with
  | init => exact Reachable.init
  | step g h l _ hs ih => exact Reachable.step g.st h.st l ih (traced_step_st g h l hs)

theorem traced_of_reachable (N K : Nat) (s : State) (hr : Reachable N K s) :
    ∃ g, TracedReachable N K g ∧ g.st = s := by
  induction hr with
  | init => exact ⟨traced_init N K, TracedReachable.init, rfl⟩
  | step s t l _ hs ih =>
    obtain ⟨g, hg, rfl⟩ := ih
    cases hts : traced_step g l with
    | none => simp [traced_step, hs] at hts
    | some h =>
      refine ⟨h, TracedReachable.step g h l hg hts, ?_⟩
      have := traced_step_st g h l hts
      rw [hs] at this
      exact (Option.some.inj this).symm

theorem traced_reachable_run (N K : Nat) (g h : Traced) (ls : List Label)
    (hr : TracedReachable N K g) (hrun : traced_run g ls = some h) :
    TracedReachable N K h := by
  induction ls generalizing g with
  | nil =>
    simp only [traced_run, Option.some.injEq] at hrun
    exact hrun ▸ hr
  | cons l ls ih =>
    simp only [traced_run] at hrun
    cases hs : traced_step g l with
    | none => simp [hs] at hrun
    | some u =>
      rw [hs] at hrun
      exact ih u (TracedReachable.step g u l hr hs) hrun

theorem traced_reachable_of_run (N K : Nat) (h : Traced) (ls : List Label)
    (hrun : traced_run (traced_init N K) ls = some h) : TracedReachable N K h :=
  traced_reachable_run N K _ h ls TracedReachable.init hrun

/-! ### Facts about the program counters taken from the phase invariant -/

theorem gathering_of_arriving (N K : Nat) (s : State) (h : Inv N K s)
    (hi : 0 < s.nb_workers_ingress ∨ 0 < s.workers.count .inc) :
    gathering s.mgr = true ∧ PreInv s := by
  have htot := count_total s.workers
  have hnb := h.shape.nb
  have hlen := h.shape.wlen
  have hph := h.phase
  cases hm : s.mgr <;> simp only [PhaseInv, hm, phase] at hph <;>
    first
      | exact ⟨rfl, hph.1⟩
      | (exfalso
         obtain ⟨m1, m2, m3, -⟩ := hph
         simp only [cnt] at m3
         omega)
      | (exfalso
         obtain ⟨⟨q1, q2, q3, q4, -⟩, -⟩ := hph
         simp only [cnt] at q4
         omega)

theorem no_worker_past_loop_of_preInv (N K : Nat) (s : State) (h : Inv N K s)
    (hp : PreInv s) (hi : 0 < s.nb_workers_ingress ∨ 0 < s.workers.count .inc) :
    ∀ w ∈ s.workers, past_wait_loop w = false := by
  have htot := count_total s.workers
  have hnb := h.shape.nb
  have hlen := h.shape.wlen
  obtain ⟨p1, p2, p3, p4, p5, p6, p7, p8⟩ := hp
  simp only [arrived, leaving, cnt] at p1 p2 p3 p4 p5 p6 p7 p8
  have z1 := not_mem_of_count_zero s.workers .einc p1
  have z2 := not_mem_of_count_zero s.workers .ecmp p2
  have z3 := not_mem_of_count_zero s.workers .cdwait p3
  have z4 := not_mem_of_count_zero s.workers .unlock (by omega)
  have z5 := not_mem_of_count_zero s.workers .esenter (by omega)
  have z6 := not_mem_of_count_zero s.workers .eswait (by omega)
  intro w hw
  cases w <;> first | rfl | contradiction

theorem not_gathering_of_loop_exit (N K : Nat) (s : State) (h : Inv N K s)
    (hl : 0 < s.workers.count .loop) (hz : s.nb_workers_ingress = 0) :
    gathering s.mgr = false := by
  have hph := h.phase
  cases hm : s.mgr <;> simp only [PhaseInv, hm, phase] at hph <;>
    first
      | rfl
      | (exfalso
         have p4 := hph.1.ingress
         simp only [arrived, cnt] at p4
         omega)

theorem counted_of_count (ws : List WPc)
    (h : ws.count .bcast + ws.count .loop + ws.count .blocked + ws.count .woken = ws.length) :
    ∀ pc ∈ ws, countedPc pc = true := by
  intro pc hpc
  have hall := all_arrived_of_count ws h
  have := List.all_eq_true.mp hall pc hpc
  cases pc <;> first | rfl | simp [arrivedPc] at this

theorem not_counted_of_count (ws : List WPc)
    (h : ws.count .ecmp + ws.count .cdwait + ws.count .unlock + ws.count .esenter +
      ws.count .eswait = ws.length) :
    ∀ pc ∈ ws, countedPc pc = false := by
  have htot := count_total ws
  intro pc hpc
  have hpos := List.count_pos_iff.mpr hpc
  cases pc <;> first | rfl | (exfalso; omega)

theorem all_counted_when_sealed (N K : Nat) (s : State) (h : Inv N K s)
    (hm : s.mgr = .reset_ingress) : ∀ pc ∈ s.workers, countedPc pc = true := by
  have hph := h.phase
  simp only [PhaseInv, hm, phase] at hph
  obtain ⟨⟨p1, p2, p3, p4, p5, p6, p7, p8⟩, -, -, hf⟩ := hph
  have := p6 hf
  simp only [arrived, cnt] at this
  apply counted_of_count
  rw [this, h.shape.nb, h.shape.wlen]

theorem none_counted_when_drained (N K : Nat) (s : State) (h : Inv N K s)
    (hm : gathering s.mgr = false) (hm2 : s.mgr ≠ .reset_completed)
    (he : s.nb_workers_egress = s.nb_workers) : ∀ pc ∈ s.workers, countedPc pc = false := by
  have hph := h.phase
  have hps : PostInv s := by
    cases hmm : s.mgr <;> rw [hmm] at hm <;> simp only [gathering, reduceCtorEq] at hm <;>
      simp only [PhaseInv, hmm, phase] at hph <;>
      first
        | exact hph.1
        | exact absurd hmm hm2
  have q := hps.egress
  simp only [leaving, cnt] at q
  apply not_counted_of_count
  rw [h.shape.wlen, ← h.shape.nb]
  omega

/-! ### Preservation of the cycle numbering -/

theorem ahead_wake_manager (m : MPc) (pc : WPc) : ahead (wake_manager m) pc = ahead m pc := by
  cases m <;> rfl

theorem ahead_wake_worker (m : MPc) (pc : WPc) : ahead m (wake_worker pc) = ahead m pc := by
  cases pc <;> rfl

theorem ahead_cd_release (m : MPc) (pc : WPc) : ahead m (cd_release pc) = ahead m pc := by
  cases pc <;> simp [cd_release, ahead, countedPc]

theorem ahead_es_release (m : MPc) (pc : WPc) : ahead m (es_release pc) = ahead m pc := by
  cases pc <;> simp [es_release, ahead, countedPc]

theorem ahead_not_counted (m : MPc) (pc : WPc) (h : countedPc pc = false) : ahead m pc = 0 := by
  simp [ahead, h]

theorem ahead_not_gathering (m : MPc) (pc : WPc) (h : gathering m = false) : ahead m pc = 0 := by
  simp [ahead, h]

theorem ahead_counted (m : MPc) (pc : WPc) (h1 : gathering m = true) (h2 : countedPc pc = true) :
    ahead m pc = 1 := by
  simp [ahead, h1, h2]

/-- The general form of a step: worker `i` moves from `p` to `p1`, every worker
is then mapped through `f`, the manager moves from `m` to `m1`. -/
theorem round_update (ws : List WPc) (rs rs1 : List Nat) (rel rel1 : Nat) (m m1 : MPc)
    (i : Nat) (p p1 : WPc) (f : WPc → WPc)
    (h : ∀ (j : Nat) (pc : WPc), ws[j]? = some pc → rs[j]? = some (rel + ahead m pc))
    (hi : ws[i]? = some p)
    (hrs : ∀ j, j ≠ i → rs1[j]? = rs[j]?)
    (hri : rs1[i]? = some (rel1 + ahead m1 (f p1)))
    (hf : ∀ pc ∈ ws, rel1 + ahead m1 (f pc) = rel + ahead m pc) :
    ∀ (j : Nat) (pc : WPc), ((ws.set i p1).map f)[j]? = some pc →
      rs1[j]? = some (rel1 + ahead m1 pc) := by
  intro j pc hj
  have hlt : i < ws.length := (List.getElem?_eq_some.mp hi).1
  rw [List.getElem?_map, List.getElem?_set] at hj
  by_cases hji : i = j
  · subst hji
    simp only [if_true, hlt, Option.map_some', Option.some.injEq] at hj
    subst hj
    exact hri
  · simp only [hji, if_false] at hj
    cases hw : ws[j]? with
    | none => simp [hw] at hj
    | some a =>
      simp only [hw, Option.map_some', Option.some.injEq] at hj
      subst hj
      rw [hrs j (fun e => hji e.symm), h j a hw, hf a (List.getElem?_mem hw)]

/-- A step of worker `i` that maps nothing and leaves the manager alone. -/
theorem round_set (ws : List WPc) (rs : List Nat) (rel : Nat) (m : MPc)
    (i : Nat) (p p1 : WPc)
    (h : ∀ (j : Nat) (pc : WPc), ws[j]? = some pc → rs[j]? = some (rel + ahead m pc))
    (hi : ws[i]? = some p) (hp : ahead m p1 = ahead m p) :
    ∀ (j : Nat) (pc : WPc), (ws.set i p1)[j]? = some pc →
      rs[j]? = some (rel + ahead m pc) := by
  have := round_update ws rs rs rel rel m m i p p1 id h hi (fun _ _ => rfl)
    (by rw [h i p hi]; simp [hp]) (fun _ _ => rfl)
  simpa using this

/-- A step of the manager (or of a broadcast) that maps every worker through `f`. -/
theorem round_map (ws : List WPc) (rs : List Nat) (rel rel1 : Nat) (m m1 : MPc)
    (f : WPc → WPc)
    (h : ∀ (j : Nat) (pc : WPc), ws[j]? = some pc → rs[j]? = some (rel + ahead m pc))
    (hf : ∀ pc ∈ ws, rel1 + ahead m1 (f pc) = rel + ahead m pc) :
    ∀ (j : Nat) (pc : WPc), (ws.map f)[j]? = some pc →
      rs[j]? = some (rel1 + ahead m1 pc) := by
  intro j pc hj
  rw [List.getElem?_map] at hj
  cases hw : ws[j]? with
  | none => simp [hw] at hj
  | some a =>
    simp only [hw, Option.map_some', Option.some.injEq] at hj
    subst hj
    rw [h j a hw, hf a (List.getElem?_mem hw)]

theorem round_same (ws : List WPc) (rs : List Nat) (rel rel1 : Nat) (m m1 : MPc)
    (h : ∀ (j : Nat) (pc : WPc), ws[j]? = some pc → rs[j]? = some (rel + ahead m pc))
    (hf : ∀ pc ∈ ws, rel1 + ahead m1 pc = rel + ahead m pc) :
    ∀ (j : Nat) (pc : WPc), ws[j]? = some pc → rs[j]? = some (rel1 + ahead m1 pc) := by
  have := round_map ws rs rel rel1 m m1 id h hf
  simpa using this

theorem roundInv_init (N K : Nat) : RoundInv N (traced_init N K) := by
  refine ⟨by simp [traced_init], ?_⟩
  intro j pc hj
  simp only [traced_init, syncpoint_init, List.getElem?_replicate] at hj ⊢
  split at hj
  · simp only [Option.some.injEq] at hj
    subst hj
    simp [*, ahead, countedPc]
  · simp at hj

theorem roundInv_worker (N K : Nat) (g h : Traced) (i : Nat) (hinv : Inv N K g.st)
    (hr : RoundInv N g) (hs : traced_step g (.worker i) = some h) : RoundInv N h := by
  obtain ⟨hlen, hrd⟩ := hr
  unfold traced_step at hs
  cases hst : step g.st (.worker i) with
  | none => simp [hst] at hs
  | some t =>
    simp only [hst, Option.some.injEq] at hs
    subst hs
    simp only [step] at hst
    unfold syncpoint_wait_step at hst
    cases hpc : g.st.workers[i]? with
    | none => simp [hpc] at hst
    | some pc =>
      have hlt : i < g.st.workers.length := (List.getElem?_eq_some.mp hpc).1
      have hli : i < g.round.length := by rw [hlen, ← hinv.shape.wlen]; exact hlt
      rw [hpc] at hst
      cases pc <;> simp only [] at hst <;> (try split at hst) <;> (try split at hst) <;>
        (try (simp only [Option.some.injEq, reduceCtorEq] at hst)) <;> (try subst hst) <;>
        refine ⟨?_, ?_⟩ <;>
        simp only [hpc, Option.some.injEq, reduceCtorEq, if_false, if_true, List.length_set,
          ahead_wake_manager] <;>
        first
          | exact hlen
          | exact round_set _ _ _ _ i _ _ hrd hpc rfl
          | skip
      · -- l.185: the worker enters its next cycle
        have hg := (gathering_of_arriving N K g.st hinv (Or.inr (count_pos_get _ i _ hpc))).1
        have := round_update g.st.workers g.round (g.round.set i (g.round.getD i 0 + 1))
          g.released g.released g.st.mgr g.st.mgr i .inc .cmp id hrd hpc
          (fun j hj => by rw [List.getElem?_set_ne (fun e => hj e.symm)])
          (by
            have h0 := hrd i .inc hpc
            rw [List.getElem?_set_self hli, List.getD_eq_getElem?_getD, h0]
            simp [ahead, hg, countedPc])
          (fun _ _ => rfl)
        simpa using this
      · -- l.196 came out false: the cycle has been released
        rename_i hz
        have hng := not_gathering_of_loop_exit N K g.st hinv (count_pos_get _ i _ hpc)
          (by simpa using hz)
        exact round_set _ _ _ _ i _ _ hrd hpc
          (by rw [ahead_not_gathering _ _ hng, ahead_not_gathering _ _ hng])
      · -- l.208 completes `continue_done`
        rename_i he hcd
        by_cases hm : g.st.mgr = .cdwait
        · have hnc := none_counted_when_drained N K g.st hinv (by rw [hm]; rfl)
            (by rw [hm]; simp) he
          simp only [hm, if_true]
          refine round_update g.st.workers g.round g.round g.released g.released g.st.mgr
            .reset_egress i .ecmp .unlock cd_release hrd hpc (fun _ _ => rfl) ?_ ?_
          · rw [hrd i .ecmp hpc, hm]; rfl
          · intro pc hpcm
            have h1 := hnc pc hpcm
            rw [ahead_not_gathering g.st.mgr pc (by rw [hm]; rfl), ahead_not_counted]
            cases pc <;> first | rfl | simp [countedPc] at h1
        · simp only [hm, if_false]
          refine round_update g.st.workers g.round g.round g.released g.released g.st.mgr
            g.st.mgr i .ecmp .unlock cd_release hrd hpc (fun _ _ => rfl) ?_ ?_
          · rw [hrd i .ecmp hpc]; rfl
          · intro pc _
            rw [ahead_cd_release]
      · -- l.221 completes `egress_sync`
        refine round_update g.st.workers g.round g.round g.released g.released g.st.mgr
          g.st.mgr i .esenter .idle es_release hrd hpc (fun _ _ => rfl) ?_ ?_
        · rw [hrd i .esenter hpc]; rfl
        · intro pc _
          rw [ahead_es_release]

theorem ahead_congr (m m1 : MPc) (pc pc1 : WPc) (hg : gathering m1 = gathering m)
    (hc : countedPc pc1 = countedPc pc) : ahead m1 pc1 = ahead m pc := by
  simp only [ahead, hg, hc]

theorem countedPc_wake_worker (pc : WPc) : countedPc (wake_worker pc) = countedPc pc := by
  cases pc <;> rfl

/-- A step of the manager between two program points of the same kind. -/
theorem round_mgr (ws : List WPc) (rs : List Nat) (rel : Nat) (m m0 m1 : MPc)
    (f : WPc → WPc) (hm : m = m0) (hg : gathering m1 = gathering m0)
    (hf : ∀ pc, countedPc (f pc) = countedPc pc)
    (h : ∀ (j : Nat) (pc : WPc), ws[j]? = some pc → rs[j]? = some (rel + ahead m pc)) :
    ∀ (j : Nat) (pc : WPc), (ws.map f)[j]? = some pc → rs[j]? = some (rel + ahead m1 pc) := by
  subst hm
  exact round_map ws rs rel rel m m1 f h
    (fun pc _ => congrArg (rel + ·) (ahead_congr m m1 pc (f pc) hg (hf pc)))

theorem round_mgr_same (ws : List WPc) (rs : List Nat) (rel : Nat) (m m0 m1 : MPc)
    (hm : m = m0) (hg : gathering m1 = gathering m0)
    (h : ∀ (j : Nat) (pc : WPc), ws[j]? = some pc → rs[j]? = some (rel + ahead m pc)) :
    ∀ (j : Nat) (pc : WPc), ws[j]? = some pc → rs[j]? = some (rel + ahead m1 pc) := by
  have := round_mgr ws rs rel m m0 m1 id hm hg (fun _ => rfl) h
  simpa using this

theorem roundInv_manager (N K : Nat) (g h : Traced) (hinv : Inv N K g.st)
    (hr : RoundInv N g) (hs : traced_step g .manager = some h) : RoundInv N h := by
  obtain ⟨hlen, hrd⟩ := hr
  unfold traced_step at hs
  cases hst : step g.st .manager with
  | none => simp [hst] at hs
  | some t =>
    simp only [hst, Option.some.injEq] at hs
    subst hs
    simp only [step] at hst
    unfold syncpoint_cont_step at hst
    cases hm : g.st.mgr <;> rw [hm] at hst <;> simp only [] at hst <;>
      (try split at hst) <;>
      (try (simp only [Option.some.injEq, reduceCtorEq] at hst)) <;> (try subst hst) <;>
      refine ⟨?_, ?_⟩ <;>
      simp only [hm, reduceCtorEq, if_false, if_true] <;>
      first
        | exact hlen
        | exact round_mgr_same _ _ _ _ _ _ hm rfl hrd
        | exact round_mgr _ _ _ _ _ _ wake_worker hm rfl countedPc_wake_worker hrd
        | skip
    · -- l.107: the manager releases the cycle
      have hall := all_counted_when_sealed N K g.st hinv hm
      refine round_same _ _ _ _ _ _ hrd ?_
      intro pc hpc
      rw [hm, ahead_counted .reset_ingress pc rfl (hall pc hpc),
        ahead_not_gathering .reset_completed pc rfl]
    · -- l.124 completes `continue_done`
      rename_i hcd
      have hng : gathering g.st.mgr = false := by rw [hm]; rfl
      have hps : PostInv g.st := by
        have hph := hinv.phase
        simp only [PhaseInv, hm, phase] at hph
        exact hph.1
      have hc1 : 0 < cnt g.st .cdwait := by
        simp only [cd_waiting, hm, reduceCtorEq, if_false] at hcd
        simp only [cnt]
        omega
      have hnc := none_counted_when_drained N K g.st hinv hng (by rw [hm]; simp)
        (hps.last hc1)
      refine round_map _ _ _ _ _ _ cd_release hrd ?_
      intro pc hpc
      have h1 := hnc pc hpc
      rw [ahead_not_gathering g.st.mgr pc hng, ahead_not_counted]
      cases pc <;> first | rfl | simp [countedPc] at h1

theorem roundInv_same (N : Nat) (g : Traced) (t : State) (hr : RoundInv N g)
    (hw : t.workers = g.st.workers) (hm : gathering t.mgr = gathering g.st.mgr) :
    RoundInv N { st := t, round := g.round, released := g.released } := by
  refine ⟨hr.len, ?_⟩
  intro j pc hj
  simp only [hw] at hj
  simp only []
  rw [hr.round j pc hj, ahead_congr g.st.mgr t.mgr pc pc hm rfl]

theorem traced_step_plain (g h : Traced) (l : Label) (hl : ∀ i, l ≠ .worker i)
    (hm : l ≠ .manager) (hs : traced_step g l = some h) :
    ∃ t, step g.st l = some t ∧ h = { st := t, round := g.round, released := g.released } := by
  unfold traced_step at hs
  cases hst : step g.st l with
  | none => simp [hst] at hs
  | some t =>
    simp only [hst, Option.some.injEq] at hs
    subst hs
    refine ⟨t, rfl, ?_⟩
    cases l <;> first | rfl | exact absurd rfl (hl _) | exact absurd rfl hm

theorem roundInv_step (N K : Nat) (g h : Traced) (l : Label) (hinv : Inv N K g.st)
    (hr : RoundInv N g) (hs : traced_step g l = some h) : RoundInv N h := by
  cases l with
  | worker i => exact roundInv_worker N K g h i hinv hr hs
  | manager => exact roundInv_manager N K g h hinv hr hs
  | worker_spurious i =>
    obtain ⟨t, hst, rfl⟩ := traced_step_plain g h _ (by simp) (by simp) hs
    obtain ⟨hlen, hrd⟩ := hr
    simp only [step] at hst
    split at hst
    · rename_i hb
      simp only [Option.some.injEq] at hst
      subst hst
      exact ⟨hlen, round_set _ _ _ _ i _ _ hrd hb rfl⟩
    · simp at hst
  | observer j =>
    obtain ⟨t, hst, rfl⟩ := traced_step_plain g h _ (by simp) (by simp) hs
    simp only [step] at hst
    unfold syncpoint_wait_all_stopped_step at hst
    cases hpc : g.st.observers[j]? with
    | none => simp [hpc] at hst
    | some pc =>
      rw [hpc] at hst
      cases pc <;> simp only [] at hst <;> (try split at hst) <;>
        (try (simp only [Option.some.injEq, reduceCtorEq] at hst)) <;> (try subst hst) <;>
        exact roundInv_same N g _ hr rfl rfl
  | observer_spurious j =>
    obtain ⟨t, hst, rfl⟩ := traced_step_plain g h _ (by simp) (by simp) hs
    simp only [step] at hst
    split at hst
    · simp only [Option.some.injEq] at hst
      subst hst
      exact roundInv_same N g _ hr rfl rfl
    · simp at hst
  | call_wait_all_stopped =>
    obtain ⟨t, hst, rfl⟩ := traced_step_plain g h _ (by simp) (by simp) hs
    simp only [step, manager_call] at hst
    split at hst
    · rename_i hc
      simp only [Option.some.injEq] at hst
      subst hst
      exact roundInv_same N g _ hr rfl (by rw [hc.1]; rfl)
    · simp at hst
  | call_cont =>
    obtain ⟨t, hst, rfl⟩ := traced_step_plain g h _ (by simp) (by simp) hs
    simp only [step, manager_call] at hst
    split at hst
    · rename_i hc
      simp only [Option.some.injEq] at hst
      subst hst
      exact roundInv_same N g _ hr rfl (by rw [hc.1]; rfl)
    · simp at hst
  | manager_spurious =>
    obtain ⟨t, hst, rfl⟩ := traced_step_plain g h _ (by simp) (by simp) hs
    simp only [step] at hst
    split at hst
    · rename_i c hc
      simp only [Option.some.injEq] at hst
      subst hst
      exact roundInv_same N g _ hr rfl (by rw [hc]; rfl)
    · simp at hst

theorem traced_reachable_inv (N K : Nat) (hN : 1 ≤ N) (hU : N < UINT32_MOD) (g : Traced)
    (hr : TracedReachable N K g) : Inv N K g.st ∧ RoundInv N g := by
  induction hr with
  | init => exact ⟨inv_init N K hN, roundInv_init N K⟩
  | step g h l _ hs ih =>
    exact ⟨inv_step N K hN hU g.st h.st l ih.1 (traced_step_st g h l hs),
      roundInv_step N K g h l ih.1 ih.2 hs⟩


/-- C4. Each worker carries the number of the cycle it is in (the number of its
executions of l.185) and the manager the number of cycles it has released
(executions of l.107); these history variables are never read by the program.
In every reachable state: (1) when a worker is about to execute
`nb_workers_ingress++` (l.185) for cycle `k + 1`, every one of the `N` workers
has left the exit barrier `egress_sync` (l.221) of cycle `k`; (2) when
`nb_workers_ingress > 0`, or a worker is about to execute l.185, no worker is
between its release from the arrival wait and the exit barrier: none is past
the loop of l.196 and not yet out of `egress_sync`, and none is still in
`pthread_cond_wait` or at the test of l.196 with a cycle the manager has already
released; (3) every worker outside `syncpoint_wait` has completed exactly the
cycles released so far, so all workers observe the same cycle number between
two calls. -/
theorem no_departure_while_arriving (N K : Nat) (hN : 1 ≤ N) (hU : N < UINT32_MOD)
    (g : Traced) (hr : TracedReachable N K g) :
    (∀ (i k : Nat), g.st.workers[i]? = some .inc → g.round[i]? = some k →
        ∀ j, j < N → passed_exit_barrier g j k = true) ∧
      ((0 < g.st.nb_workers_ingress ∨ WPc.inc ∈ g.st.workers) →
        ∀ j, departing g j = false) ∧
      (∀ (j : Nat), g.st.workers[j]? = some .idle → g.round[j]? = some g.released) := by
  obtain ⟨hinv, hlen, hrd⟩ := traced_reachable_inv N K hN hU g hr
  have hwl := hinv.shape.wlen
  refine ⟨?_, ?_, ?_⟩
  · intro i k hi hk j hj
    obtain ⟨hg, hpre⟩ :=
      gathering_of_arriving N K g.st hinv (Or.inr (count_pos_get _ i _ hi))
    have hno := no_worker_past_loop_of_preInv N K g.st hinv hpre
      (Or.inr (count_pos_get _ i _ hi))
    have hki := hrd i .inc hi
    rw [hk] at hki
    have hkr : k = g.released := by simpa [ahead, countedPc] using hki
    have hjl : j < g.st.workers.length := by omega
    have hpc : g.st.workers[j]? = some (g.st.workers.get ⟨j, hjl⟩) := by
      simp [List.getElem?_eq_getElem hjl]
    have hrj := hrd j _ hpc
    have hnp := hno _ (List.getElem?_mem hpc)
    simp only [passed_exit_barrier, hpc, hrj, hkr]
    cases hc : countedPc (g.st.workers.get ⟨j, hjl⟩)
    · rw [ahead_not_counted _ _ hc]
      cases hw : g.st.workers.get ⟨j, hjl⟩ <;> rw [hw] at hc hnp <;>
        first
          | (simp [countedPc] at hc; done)
          | (simp [past_wait_loop] at hnp; done)
          | simp
    · rw [ahead_counted _ _ hg hc]
      simp
  · intro hi j
    have hi2 : 0 < g.st.nb_workers_ingress ∨ 0 < g.st.workers.count .inc := by
      rcases hi with hi | hi
      · exact Or.inl hi
      · exact Or.inr (List.count_pos_iff.mpr hi)
    obtain ⟨hg, hpre⟩ := gathering_of_arriving N K g.st hinv hi2
    have hno := no_worker_past_loop_of_preInv N K g.st hinv hpre hi2
    cases hpc : g.st.workers[j]? with
    | none => simp [departing, hpc]
    | some pc =>
      have hrj := hrd j pc hpc
      have hnp := hno pc (List.getElem?_mem hpc)
      simp only [departing, hpc, hrj, hnp, Bool.false_or]
      cases pc <;> simp [ahead, hg, countedPc]
  · intro j hj
    have := hrd j .idle hj
    simpa [ahead, countedPc] using this

end Syncpoint

namespace Syncpoint

/-! ## Sequential scenarios -/

theorem worker_pcs_length (N : Nat) (f : Nat → WPc) : (worker_pcs N f).length = N := by
  simp [worker_pcs]

theorem worker_pcs_get (N : Nat) (f : Nat → WPc) (i : Nat) (h : i < N) :
    (worker_pcs N f)[i]? = some (f i) := by
  simp [worker_pcs, List.getElem?_range, h]

theorem worker_pcs_congr (N : Nat) (f g : Nat → WPc) (h : ∀ j, j < N → f j = g j) :
    worker_pcs N f = worker_pcs N g := by
  unfold worker_pcs
  apply List.map_congr_left
  intro j hj
  exact h j (List.mem_range.mp hj)

theorem worker_pcs_set (N : Nat) (f : Nat → WPc) (i : Nat) (b : WPc) :
    (worker_pcs N f).set i b = worker_pcs N (fun j => if j = i then b else f j) := by
  apply List.ext_getElem?
  intro j
  by_cases hj : j < N
  · rw [worker_pcs_get N _ j hj, List.getElem?_set, worker_pcs_length]
    by_cases hij : i = j
    · subst hij; simp [hj]
    · have : ¬ (j = i) := fun h => hij h.symm
      simp [hij, this, worker_pcs_get N f j hj]
  · have h1 : ((worker_pcs N f).set i b)[j]? = none := by
      apply List.getElem?_eq_none
      simp [worker_pcs_length]; omega
    have h2 : (worker_pcs N (fun j => if j = i then b else f j))[j]? = none := by
      apply List.getElem?_eq_none
      simp [worker_pcs_length]; omega
    rw [h1, h2]

theorem worker_pcs_const (N : Nat) (c : WPc) :
    worker_pcs N (fun _ => c) = List.replicate N c := by
  apply List.ext_getElem?
  intro j
  by_cases hj : j < N
  · rw [worker_pcs_get N _ j hj]; simp [hj]
  · have h1 : (worker_pcs N (fun _ => c))[j]? = none := by
      apply List.getElem?_eq_none
      simp [worker_pcs_length]; omega
    rw [h1]; simp; omega

theorem run_cons (s : State) (l : Label) (ls : List Label) :
    run s (l :: ls) = (step s l).bind (fun t => run t ls) := rfl

theorem run_nil (s : State) : run s [] = some s := rfl

theorem map_wake_observer_idle (K : Nat) :
    (List.replicate K OPc.idle).map wake_observer = List.replicate K OPc.idle := by
  simp [List.map_replicate, wake_observer]

theorem arrive_run (N K : Nat) (P : List Nat) (i : Nat) (hU : N < UINT32_MOD) (hi : i < N)
    (hP : i ∉ P) (hm : P.length < N) :
    run (arrived_state N K P) (arrive_steps (decide (P.length + 1 = N)) i)
      = some (arrived_state N K (P ++ [i])) := by
  have hmod : (P.length + 1) % UINT32_MOD = P.length + 1 := Nat.mod_eq_of_lt (by omega)
  have hmodN : N % UINT32_MOD = N := Nat.mod_eq_of_lt hU
  have hne : ¬ (P.length = N) := by omega
  have hN0 : ¬ (N = 0) := by omega
  by_cases hlast : P.length + 1 = N
  · simp only [arrive_steps, hlast, decide_True, if_true, List.replicate, run_cons, run_nil,
      step, syncpoint_wait_step, arrived_state, syncpoint_init, worker_pcs_set,
      worker_pcs_get N _ i hi, hP, if_false, if_true, Option.bind, hmodN, wake_manager,
      map_wake_observer_idle, ne_eq, hN0, not_false_eq_true, List.length_append,
      List.length_singleton, hne, decide_False]
    congr 2
    apply worker_pcs_congr
    intro j hj
    by_cases hji : j = i
    · simp [hji]
    · simp [hji]
  · have hne2 : ¬ (P.length + 1 = 0) := by omega
    simp only [arrive_steps, hlast, decide_False, if_true, List.replicate, run_cons, run_nil,
      step, syncpoint_wait_step, arrived_state, syncpoint_init, worker_pcs_set,
      worker_pcs_get N _ i hi, hP, if_false, if_true, Option.bind, hmod, wake_manager,
      map_wake_observer_idle, ne_eq, hne2, not_false_eq_true, List.length_append,
      List.length_singleton, hne, Bool.false_eq_true]
    congr 2
    apply worker_pcs_congr
    intro j hj
    by_cases hji : j = i
    · simp [hji]
    · simp [hji]

theorem nodup_length_le (N : Nat) (l : List Nat) (hd : l.Nodup) (hlt : ∀ i ∈ l, i < N) :
    l.length ≤ N := by
  have hsub : l ⊆ List.range N := fun i hi => List.mem_range.mpr (hlt i hi)
  have := (List.subperm_of_subset hd hsub).length_le
  simpa using this

theorem arrivals_run (N K : Nat) (hU : N < UINT32_MOD) (ws P : List Nat)
    (hd : (P ++ ws).Nodup) (hlt : ∀ i ∈ P ++ ws, i < N) :
    run (arrived_state N K P) (arrivals N P.length ws)
      = some (arrived_state N K (P ++ ws)) := by
  induction ws generalizing P with
  | nil => simp [arrivals, run]
  | cons i ws ih =>
    have hlen := nodup_length_le N _ hd hlt
    simp only [List.length_append, List.length_cons] at hlen
    have hi : i < N := hlt i (by simp)
    have hP : i ∉ P := by
      intro hmem
      have := List.nodup_append.mp hd
      exact this.2.2 hmem (List.mem_cons_self i ws)
    simp only [arrivals, run_append]
    rw [arrive_run N K P i hU hi hP (by omega)]
    simp only [Option.bind]
    have h1 : P ++ i :: ws = (P ++ [i]) ++ ws := by simp
    have h2 : P.length + 1 = (P ++ [i]).length := by simp
    rw [h1, h2]
    apply ih
    · rw [← h1]; exact hd
    · rw [← h1]; exact hlt

theorem arrived_state_nil (N K : Nat) (hN : 1 ≤ N) :
    arrived_state N K [] = syncpoint_init N K := by
  have h0 : ¬ (0 = N) := by omega
  simp only [arrived_state, syncpoint_init, List.length_nil, h0, decide_False,
    List.not_mem_nil, if_false, worker_pcs_const]

/-- C6. For every worker count `N ≥ 1` and every list of `k` distinct workers:
after `syncpoint_init N` and the arrival of these workers (each runs
`syncpoint_wait` until it blocks in l.197), with no `syncpoint_cont`,
`syncpoint_wait_count` returns `k`, `nb_workers_egress` is `0`, `nb_workers` is
`N`, and `ingress_completed` is true exactly when `k = N`. -/
theorem wait_count_after_arrivals (N K : Nat) (hN : 1 ≤ N) (hU : N < UINT32_MOD)
    (ws : List Nat) (hd : ws.Nodup) (hlt : ∀ i ∈ ws, i < N) :
    ∃ s, run (syncpoint_init N K) (arrivals N 0 ws) = some s ∧
      syncpoint_wait_count s = ws.length ∧ s.nb_workers_egress = 0 ∧ s.nb_workers = N ∧
      (s.ingress_completed = true ↔ ws.length = N) := by
  refine ⟨arrived_state N K ws, ?_, rfl, rfl, rfl, ?_⟩
  · have := arrivals_run N K hU ws [] (by simpa using hd) (by simpa using hlt)
    rw [arrived_state_nil N K hN] at this
    simpa using this
  · simp [arrived_state]

end Syncpoint

namespace Syncpoint

namespace Sequential

/-! ## Error propagation in the sequential embedding -/

theorem clean_append_ok (serial : Int) (log : List Event) (e : Event)
    (h : Clean serial log) (he : is_error serial e = false) : Clean serial (log ++ [e]) := by
  intro x hx
  rcases List.mem_append.mp hx with hx | hx
  · exact h x hx
  · simp only [List.mem_singleton] at hx
    rw [hx]; exact he

theorem call_wf (serial : Int) (p : Prim) (c : Ctx) (h : Clean serial c.log) :
    WF serial (call serial p c) := by
  unfold call
  cases hr : c.replies with
  | nil => exact ⟨h, hr⟩
  | cons r rs =>
    simp only []
    by_cases hf : is_failure serial p r.rc = true
    · rw [if_pos hf]
      exact ⟨c.log, p, r.rc, rfl, hf, h⟩
    · rw [if_neg hf]
      simp only [Bool.not_eq_true] at hf
      exact clean_append_ok serial c.log _ h hf

theorem and_then_wf (serial : Int) (x : Outcome × Ctx) (f : Ctx → Outcome × Ctx)
    (hx : WF serial x) (hf : ∀ c, Clean serial c.log → WF serial (f c)) :
    WF serial (and_then x f) := by
  obtain ⟨o, c⟩ := x
  cases o with
  | ok => exact hf c hx
  | failed => exact hx
  | blocked => exact hx

theorem write_ingress_clean (serial : Int) (c : Ctx) (v : Nat) (h : Clean serial c.log) :
    Clean serial (write_ingress c v).log :=
  clean_append_ok serial c.log _ h rfl

theorem write_egress_clean (serial : Int) (c : Ctx) (v : Nat) (h : Clean serial c.log) :
    Clean serial (write_egress c v).log :=
  clean_append_ok serial c.log _ h rfl

theorem write_completed_clean (serial : Int) (c : Ctx) (b : Bool) (h : Clean serial c.log) :
    Clean serial (write_completed c b).log :=
  clean_append_ok serial c.log _ h rfl

theorem stopped_loop_wf (serial : Int) (v : Vars) (log : List Event) (rs : List Reply)
    (h : Clean serial log) : WF serial (stopped_loop serial v log rs) := by
  induction rs generalizing v log with
  | nil =>
    unfold stopped_loop
    split
    · exact ⟨h, rfl⟩
    · exact h
  | cons r rs ih =>
    unfold stopped_loop
    split
    · split
      · rename_i hf
        exact ⟨log, _, r.rc, rfl, hf, h⟩
      · rename_i hf
        simp only [Bool.not_eq_true] at hf
        exact ih _ _ (clean_append_ok serial log _ h hf)
    · exact h

theorem ingress_loop_wf (serial : Int) (v : Vars) (log : List Event) (rs : List Reply)
    (h : Clean serial log) : WF serial (ingress_loop serial v log rs) := by
  induction rs generalizing v log with
  | nil =>
    unfold ingress_loop
    split
    · exact ⟨h, rfl⟩
    · exact h
  | cons r rs ih =>
    unfold ingress_loop
    split
    · split
      · rename_i hf
        exact ⟨log, _, r.rc, rfl, hf, h⟩
      · rename_i hf
        simp only [Bool.not_eq_true] at hf
        exact ih _ _ (clean_append_ok serial log _ h hf)
    · exact h

theorem wait_all_stopped_wf (serial : Int) (c : Ctx) (h : Clean serial c.log) :
    WF serial (syncpoint_wait_all_stopped serial c) := by
  unfold syncpoint_wait_all_stopped
  apply and_then_wf _ _ _ (call_wf serial _ c h)
  intro c1 h1
  apply and_then_wf _ _ _ (stopped_loop_wf serial _ _ _ h1)
  intro c2 h2
  exact call_wf serial _ c2 h2

theorem cont_wf (serial : Int) (c : Ctx) (h : Clean serial c.log) :
    WF serial (syncpoint_cont serial c) := by
  unfold syncpoint_cont
  apply and_then_wf _ _ _ (wait_all_stopped_wf serial c h)
  intro c1 h1
  apply and_then_wf _ _ _ (call_wf serial _ c1 h1)
  intro c2 h2
  apply and_then_wf _ _ _ (call_wf serial _ _
    (write_completed_clean serial _ _ (write_ingress_clean serial _ _ h2)))
  intro c3 h3
  apply and_then_wf _ _ _ (call_wf serial _ c3 h3)
  intro c4 h4
  apply and_then_wf _ _ _ (call_wf serial _ c4 h4)
  intro c5 h5
  exact write_egress_clean serial _ _ h5

theorem count_ingress_wf (serial : Int) (n : Nat) (c : Ctx) (h : Clean serial c.log) :
    WF serial (count_ingress serial n c) := by
  unfold count_ingress
  simp only []
  split
  · exact call_wf serial _ _
      (write_completed_clean serial _ _ (write_ingress_clean serial _ _ h))
  · exact write_ingress_clean serial _ _ h

theorem count_egress_wf (serial : Int) (n : Nat) (c : Ctx) (h : Clean serial c.log) :
    WF serial (count_egress serial n c) := by
  unfold count_egress
  simp only []
  split
  · exact call_wf serial _ _ (write_egress_clean serial _ _ h)
  · exact write_egress_clean serial _ _ h

theorem wait_wf (serial : Int) (n : Nat) (c : Ctx) (h : Clean serial c.log) :
    WF serial (syncpoint_wait serial n c) := by
  unfold syncpoint_wait
  apply and_then_wf _ _ _ (call_wf serial _ c h)
  intro c1 h1
  apply and_then_wf _ _ _ (count_ingress_wf serial n c1 h1)
  intro c2 h2
  apply and_then_wf _ _ _ (ingress_loop_wf serial _ _ _ h2)
  intro c3 h3
  apply and_then_wf _ _ _ (count_egress_wf serial n c3 h3)
  intro c4 h4
  apply and_then_wf _ _ _ (call_wf serial _ c4 h4)
  intro c5 h5
  exact call_wf serial _ c5 h5

theorem faithful_of_wf (serial : Int) (r : Outcome × Ctx) (h : WF serial r) :
    Faithful serial r := by
  obtain ⟨o, c⟩ := r
  cases o with
  | failed =>
    obtain ⟨pre, p, rc, hlog, hfail, hclean⟩ := h
    simp only at hlog
    refine ⟨?_, ?_, ?_⟩
    · constructor
      · intro _
        exact ⟨.call p rc, by simp [hlog], hfail⟩
      · intro _; rfl
    · intro pre' e post hl he
      simp only at hl
      rw [hlog] at hl
      by_contra hpost
      -- e lies in `pre`, which is clean
      have hmem : e ∈ pre := by
        have hlen : (pre ++ [Event.call p rc]).length = (pre' ++ e :: post).length := by
          rw [hl]
        simp only [List.length_append, List.length_cons, List.length_nil] at hlen
        have hpl : 0 < post.length := List.length_pos.mpr hpost
        have hlt : pre'.length < pre.length := by omega
        have h1 : (pre ++ [Event.call p rc])[pre'.length]? = some e := by
          rw [hl, List.getElem?_append_right (Nat.le_refl _)]
          simp
        rw [List.getElem?_append_left hlt] at h1
        exact List.getElem?_mem h1
      have := hclean e hmem
      rw [he] at this
      cases this
    · intro hb; cases hb
  | ok =>
    have hc : Clean serial c.log := h
    refine ⟨?_, ?_, ?_⟩
    · constructor
      · intro hf; cases hf
      · rintro ⟨e, he, herr⟩
        have := hc e he
        rw [herr] at this
        cases this
    · intro pre e post hl he
      have := hc e (by simp only at hl; rw [hl]; simp)
      rw [he] at this
      cases this
    · intro hb; cases hb
  | blocked =>
    obtain ⟨hc, hr⟩ := h
    refine ⟨?_, ?_, ?_⟩
    · constructor
      · intro hf; cases hf
      · rintro ⟨e, he, herr⟩
        have := hc e he
        rw [herr] at this
        cases this
    · intro pre e post hl he
      have := hc e (by simp only at hl; rw [hl]; simp)
      rw [he] at this
      cases this
    · intro _; exact hr

theorem nowrite_append_call (log : List Event) (p : Prim) (rc : Int) (h : NoWrite log) :
    NoWrite (log ++ [.call p rc]) := by
  intro x hx
  rcases List.mem_append.mp hx with hx | hx
  · exact h x hx
  · simp only [List.mem_singleton] at hx
    rw [hx]; rfl

theorem call_nowrite (serial : Int) (p : Prim) (c : Ctx) (h : NoWrite c.log) :
    NoWrite (call serial p c).2.log := by
  unfold call
  cases hr : c.replies with
  | nil => exact h
  | cons r rs =>
    simp only []
    split <;> exact nowrite_append_call _ _ _ h

theorem and_then_nowrite (x : Outcome × Ctx) (f : Ctx → Outcome × Ctx)
    (hx : NoWrite x.2.log) (hf : ∀ c, NoWrite c.log → NoWrite (f c).2.log) :
    NoWrite (and_then x f).2.log := by
  obtain ⟨o, c⟩ := x
  cases o with
  | ok => exact hf c hx
  | failed => exact hx
  | blocked => exact hx

theorem stopped_loop_nowrite (serial : Int) (v : Vars) (log : List Event) (rs : List Reply)
    (h : NoWrite log) : NoWrite (stopped_loop serial v log rs).2.log := by
  induction rs generalizing v log with
  | nil =>
    unfold stopped_loop
    split <;> exact h
  | cons r rs ih =>
    unfold stopped_loop
    split
    · split
      · exact nowrite_append_call _ _ _ h
      · exact ih _ _ (nowrite_append_call _ _ _ h)
    · exact h

theorem wait_all_stopped_nowrite (serial : Int) (c : Ctx) (h : NoWrite c.log) :
    NoWrite (syncpoint_wait_all_stopped serial c).2.log := by
  unfold syncpoint_wait_all_stopped
  apply and_then_nowrite _ _ (call_nowrite serial _ c h)
  intro c1 h1
  apply and_then_nowrite _ _ (stopped_loop_nowrite serial _ _ _ h1)
  intro c2 h2
  exact call_nowrite serial _ c2 h2

/-- C8. With the return code of every pthread call as an input: each of
`syncpoint_wait`, `syncpoint_wait_all_stopped` and `syncpoint_cont` returns
`false` exactly when one of the calls it made reported an error (for the barrier
waits `PTHREAD_BARRIER_SERIAL_THREAD` is a success); the erroneous call is the
last thing the operation does (no further call, no further write); an operation
that has not returned has used up its replies; and `syncpoint_cont` fails, with
the same calls and without any write of its own, whenever its initial
`syncpoint_wait_all_stopped` fails. -/
theorem failure_iff_a_call_failed (serial : Int) (nb_workers : Nat) (v : Vars)
    (rs : List Reply) :
    Faithful serial (syncpoint_wait serial nb_workers ⟨v, [], rs⟩) ∧
    Faithful serial (syncpoint_wait_all_stopped serial ⟨v, [], rs⟩) ∧
    Faithful serial (syncpoint_cont serial ⟨v, [], rs⟩) ∧
    ((syncpoint_wait_all_stopped serial ⟨v, [], rs⟩).1 = .failed →
      syncpoint_cont serial ⟨v, [], rs⟩ = syncpoint_wait_all_stopped serial ⟨v, [], rs⟩ ∧
      NoWrite (syncpoint_cont serial ⟨v, [], rs⟩).2.log) := by
  have hclean : Clean serial ([] : List Event) := by intro e he; cases he
  have hnw : NoWrite ([] : List Event) := by intro e he; cases he
  refine ⟨faithful_of_wf serial _ (wait_wf serial nb_workers _ hclean),
    faithful_of_wf serial _ (wait_all_stopped_wf serial _ hclean),
    faithful_of_wf serial _ (cont_wf serial _ hclean), ?_⟩
  intro hfail
  have heq : syncpoint_cont serial ⟨v, [], rs⟩
      = syncpoint_wait_all_stopped serial ⟨v, [], rs⟩ := by
    unfold syncpoint_cont
    generalize syncpoint_wait_all_stopped serial ⟨v, [], rs⟩ = x at hfail
    obtain ⟨o, c⟩ := x
    simp only at hfail
    subst hfail
    rfl
  refine ⟨heq, ?_⟩
  rw [heq]
  exact wait_all_stopped_nowrite serial _ hnw

/-- C9 (as amended). `syncpoint_init` returns no object exactly when the memory
allocation fails; when the allocation succeeds it returns the object with
`nb_workers` set, both counters `0` and `ingress_completed = false`, whatever the
six pthread initialisation calls return. -/
theorem init_fails_iff_malloc_fails (nb_workers : Nat) (env : InitEnv) :
    (syncpoint_init nb_workers env = none ↔ env.malloc_ok = false) ∧
    (env.malloc_ok = true → ∃ c, syncpoint_init nb_workers env = some c ∧
      c.nb_workers = nb_workers ∧ c.vars = ⟨0, 0, false⟩) := by
  unfold syncpoint_init
  cases env.malloc_ok <;> simp

end Sequential

end Syncpoint

namespace Syncpoint

/-! ## Instances of the theorems on concrete runs -/

theorem three_lt_uint32 : 3 < UINT32_MOD := by decide

theorem one_lt_uint32 : 1 < UINT32_MOD := by decide

theorem all_arrived_reachable : Reachable 3 1 (arrived_state 3 1 [0, 1, 2]) :=
  reachable_of_run 3 1 _ (arrivals 3 0 [0, 1, 2]) (by decide)

theorem race_reachable : Reachable 3 1 race_state :=
  reachable_of_run 3 1 _ race_schedule (by decide)

theorem polling_reachable : Reachable 3 1 polling_state :=
  reachable_of_run 3 1 _ (arrivals 3 0 [0, 1, 2] ++ [.call_wait_all_stopped]) (by decide)

theorem early_drain_reachable : Reachable 1 0 early_drain_state :=
  reachable_of_run 1 0 _ early_drain_schedule (by decide)

theorem last_worker_reachable : Reachable 1 0 last_worker_state :=
  reachable_of_run 1 0 _ last_worker_schedule (by decide)

theorem last_worker_passed_reachable : Reachable 1 0 last_worker_passed :=
  reachable_of_run 1 0 _ (last_worker_schedule ++ [.worker 0]) (by decide)

theorem first_departure_reachable : Reachable 3 1 first_departure_state :=
  reachable_of_run 3 1 _ first_departure_schedule (by decide)

theorem last_departure_reachable : Reachable 3 1 last_departure_state :=
  reachable_of_run 3 1 _ last_departure_schedule (by decide)

theorem last_departure_passed_reachable : Reachable 3 1 last_departure_passed :=
  reachable_of_run 3 1 _ (last_departure_schedule ++ [.worker 2]) (by decide)

theorem early_last_reachable : Reachable 3 1 early_last_state :=
  reachable_of_run 3 1 _ early_last_schedule (by decide)

theorem second_cycle_reachable : TracedReachable 3 1 second_cycle_state :=
  traced_reachable_of_run 3 1 _ second_cycle_schedule (by decide)

/-- C1 at the state where the three workers of `syncpoint_init 3` have arrived:
the counters are within bounds and the flag is set with `nb_workers_ingress = 3`. -/
theorem counters_bounded_and_flag_iff_full_witness :
    1 ≤ 3 ∧ 3 < UINT32_MOD ∧ Reachable 3 1 (arrived_state 3 1 [0, 1, 2]) ∧
      mid_update (arrived_state 3 1 [0, 1, 2]) = false ∧
      (arrived_state 3 1 [0, 1, 2]).nb_workers_ingress ≤ 3 ∧
      (arrived_state 3 1 [0, 1, 2]).nb_workers_egress ≤ 3 ∧
      ((arrived_state 3 1 [0, 1, 2]).ingress_completed = true ↔
        (arrived_state 3 1 [0, 1, 2]).nb_workers_ingress = 3) :=
  ⟨by decide, three_lt_uint32, all_arrived_reachable, by decide,
    (counters_bounded_and_flag_iff_full 3 1 (by decide) three_lt_uint32 _
      all_arrived_reachable).2.1,
    (counters_bounded_and_flag_iff_full 3 1 (by decide) three_lt_uint32 _
      all_arrived_reachable).2.2.1,
    (counters_bounded_and_flag_iff_full 3 1 (by decide) three_lt_uint32 _
      all_arrived_reachable).2.2.2 (by decide)⟩

/-- C2 as stated fails: with three workers, an observer leaves its wait loop in
a state where `ingress_completed` is true and `nb_workers_ingress` is `0`, not
`3` (the manager is between l.107 and l.108). -/
theorem wait_loop_left_with_ingress_zero :
    ¬ (∀ (s t : State) (l : Label), Reachable 3 1 s → step s l = some t →
        leaves_wait_loop s t l = true →
        s.ingress_completed = true ∧ s.nb_workers_ingress = 3) :=
  fun h => absurd
    (h race_state race_state_left (.observer 0) race_reachable (by decide) (by decide)).2
    (by decide)

/-- C2 (as amended) at the state where the manager polls after three arrivals. -/
theorem wait_loop_left_only_after_all_increments_witness :
    1 ≤ 3 ∧ 3 < UINT32_MOD ∧ Reachable 3 1 polling_state ∧
      step polling_state .manager = some polling_state_left ∧
      leaves_wait_loop polling_state polling_state_left .manager = true ∧
      (polling_state.ingress_completed = true ∧ polling_state.workers.length = 3 ∧
        all_arrived polling_state = true ∧
        (polling_state.nb_workers_ingress = 3 ∨
          (polling_state.nb_workers_ingress = 0 ∧ polling_state.mgr = .reset_completed))) :=
  ⟨by decide, three_lt_uint32, polling_reachable, by decide, by decide,
    wait_loop_left_only_after_all_increments 3 1 (by decide) three_lt_uint32
      polling_state polling_state_left .manager polling_reachable (by decide) (by decide)⟩

/-- C3 with a single worker: the step in which the worker enters `continue_done`
releases the manager, and `nb_workers_egress = 1` at that moment. -/
theorem manager_passes_drain_only_when_all_departed_witness :
    1 ≤ 1 ∧ 1 < UINT32_MOD ∧ Reachable 1 0 last_worker_state ∧
      step last_worker_state (.worker 0) = some last_worker_passed ∧
      manager_passes_drain last_worker_state last_worker_passed = true ∧
      (last_worker_state.nb_workers_egress = 1 ∧ last_worker_passed.nb_workers_egress = 1 ∧
        last_worker_passed.workers.length = 1 ∧
        last_worker_passed.workers.all leavingPc = true) :=
  ⟨by decide, one_lt_uint32, last_worker_reachable, by decide, by decide,
    (manager_passes_drain_only_when_all_departed 1 0 (by decide) one_lt_uint32
      last_worker_state last_worker_reachable).2 last_worker_passed (.worker 0)
      (by decide) (by decide)⟩

/-- C4 in the second cycle of three workers: worker 0 has arrived again
(`nb_workers_ingress = 1`) and worker 1 is about to execute l.185 for cycle 2;
every worker has left the exit barrier of cycle 1, none is departing, and the
worker outside `syncpoint_wait` is in the cycle released last. -/
theorem no_departure_while_arriving_witness :
    1 ≤ 3 ∧ 3 < UINT32_MOD ∧ TracedReachable 3 1 second_cycle_state ∧
      second_cycle_state.st.workers[1]? = some .inc ∧
      second_cycle_state.round[1]? = some 1 ∧
      0 < second_cycle_state.st.nb_workers_ingress ∧
      (passed_exit_barrier second_cycle_state 0 1 = true ∧
        passed_exit_barrier second_cycle_state 1 1 = true ∧
        passed_exit_barrier second_cycle_state 2 1 = true) ∧
      (∀ j, departing second_cycle_state j = false) ∧
      second_cycle_state.round[2]? = some second_cycle_state.released :=
  ⟨by decide, three_lt_uint32, second_cycle_reachable, rfl, rfl, by decide,
    ⟨(no_departure_while_arriving 3 1 (by decide) three_lt_uint32 second_cycle_state
        second_cycle_reachable).1 1 1 rfl rfl 0 (by decide),
      (no_departure_while_arriving 3 1 (by decide) three_lt_uint32 second_cycle_state
        second_cycle_reachable).1 1 1 rfl rfl 1 (by decide),
      (no_departure_while_arriving 3 1 (by decide) three_lt_uint32 second_cycle_state
        second_cycle_reachable).1 1 1 rfl rfl 2 (by decide)⟩,
    (no_departure_while_arriving 3 1 (by decide) three_lt_uint32 second_cycle_state
      second_cycle_reachable).2.1 (Or.inl (by decide)),
    (no_departure_while_arriving 3 1 (by decide) three_lt_uint32 second_cycle_state
      second_cycle_reachable).2.2 2 rfl⟩

/-- C6 for three workers of which workers 2 and 0 have arrived. -/
theorem wait_count_after_arrivals_witness :
    1 ≤ 3 ∧ 3 < UINT32_MOD ∧ [2, 0].Nodup ∧ (∀ i ∈ [2, 0], i < 3) ∧
      ∃ s, run (syncpoint_init 3 1) (arrivals 3 0 [2, 0]) = some s ∧
        syncpoint_wait_count s = [2, 0].length ∧ s.nb_workers_egress = 0 ∧
        s.nb_workers = 3 ∧ (s.ingress_completed = true ↔ [2, 0].length = 3) :=
  ⟨by decide, three_lt_uint32, by decide, by decide,
    wait_count_after_arrivals 3 1 (by decide) three_lt_uint32 [2, 0] (by decide)
      (by decide)⟩

/-- C7 as stated fails: the single worker of `syncpoint_init 1` is blocked in
`continue_done` (l.208) while it owns `worker_wait.sync.m`. -/
theorem worker_in_continue_done_owns_primary_mutex :
    ¬ (∀ (s : State) (tid : Tid), Reachable 1 0 s → blocked_in_barrier s tid = true →
        s.worker_m ≠ some tid ∧ s.client_m ≠ some tid) :=
  fun h => (h early_drain_state (.worker 0) early_drain_reachable (by decide)).1 rfl

/-- C7 (as amended) with three workers: worker 2, blocked in `continue_done`,
owns the primary mutex and not the secondary one. -/
theorem barrier_waiter_owns_at_most_primary_in_continue_done_witness :
    1 ≤ 3 ∧ 3 < UINT32_MOD ∧ Reachable 3 1 early_last_state ∧
      blocked_in_barrier early_last_state (.worker 2) = true ∧
      early_last_state.client_m ≠ some (.worker 2) ∧
      early_last_state.worker_m = some (.worker 2) :=
  ⟨by decide, three_lt_uint32, early_last_reachable, by decide,
    (barrier_waiter_owns_at_most_primary_in_continue_done 3 1 (by decide) three_lt_uint32
      _ early_last_reachable (.worker 2) (by decide)).1,
    (barrier_waiter_owns_at_most_primary_in_continue_done 3 1 (by decide) three_lt_uint32
      _ early_last_reachable (.worker 2) (by decide)).2.mpr ⟨2, rfl, rfl⟩⟩

/-- C10 in a cycle with three workers: worker 0, the first to depart, reads
`nb_workers_egress = 1` at l.206 and skips the rendezvous; worker 2, the last,
reads `nb_workers_egress = 3` and enters it, as the first worker of the cycle;
and once the manager has left the rendezvous one worker call, one manager call
and two skips have been counted. -/
theorem drain_rendezvous_entered_once_per_cycle_witness :
    1 ≤ 3 ∧ 3 < UINT32_MOD ∧
      (Reachable 3 1 first_departure_state ∧
        first_departure_state.workers[0]? = some .ecmp ∧
        step first_departure_state (.worker 0) = some first_departure_skipped ∧
        first_departure_state.nb_workers_egress ≠ 3 ∧
        (first_departure_skipped.cycle_cd_worker = first_departure_state.cycle_cd_worker ∧
          first_departure_skipped.cycle_skipped = first_departure_state.cycle_skipped + 1 ∧
          first_departure_skipped.workers[0]? = some .unlock)) ∧
      (Reachable 3 1 last_departure_state ∧
        last_departure_state.workers[2]? = some .ecmp ∧
        step last_departure_state (.worker 2) = some last_departure_passed ∧
        last_departure_state.nb_workers_egress = 3 ∧
        (last_departure_state.cycle_cd_worker = 0 ∧
          last_departure_passed.cycle_cd_worker = 1 ∧
          last_departure_passed.cycle_skipped = last_departure_state.cycle_skipped)) ∧
      (Reachable 3 1 last_departure_passed ∧ last_departure_passed.mgr = .reset_egress ∧
        (last_departure_passed.cycle_cd_worker = 1 ∧
          last_departure_passed.cycle_cd_manager = 1 ∧
          last_departure_passed.cycle_skipped + 1 = 3)) :=
  ⟨by decide, three_lt_uint32,
    ⟨first_departure_reachable, rfl, by decide, by decide,
      (if_neg (show ¬ first_departure_state.nb_workers_egress = 3 by decide)).mp
        ((drain_rendezvous_entered_once_per_cycle 3 1 (by decide) three_lt_uint32 _
          first_departure_reachable).2.2.2.2.2 0 first_departure_skipped rfl (by decide))⟩,
    ⟨last_departure_reachable, rfl, by decide, by decide,
      (if_pos (show last_departure_state.nb_workers_egress = 3 by decide)).mp
        ((drain_rendezvous_entered_once_per_cycle 3 1 (by decide) three_lt_uint32 _
          last_departure_reachable).2.2.2.2.2 2 last_departure_passed rfl (by decide))⟩,
    ⟨last_departure_passed_reachable, rfl,
      (drain_rendezvous_entered_once_per_cycle 3 1 (by decide) three_lt_uint32 _
        last_departure_passed_reachable).2.2.2.2.1 rfl⟩⟩

namespace Sequential

/-- C8 on a `syncpoint_cont` whose `pthread_cond_broadcast` reports `EINVAL`: the
operation returns `false`. -/
theorem failure_iff_a_call_failed_witness :
    (syncpoint_cont (-1) ⟨⟨3, 0, true⟩, [], broadcast_fails⟩).1 = .failed :=
  (failure_iff_a_call_failed (-1) 3 ⟨3, 0, true⟩ broadcast_fails).2.2.1.1.mpr
    ⟨.call .broadcast_worker 22, by decide, by decide⟩

/-- C9 as stated fails: `malloc` succeeds, `pthread_barrier_init(&egress_sync)`
fails, and `syncpoint_init` still returns an object. -/
theorem init_returns_object_without_exit_barrier :
    ¬ (∀ (n : Nat) (env : InitEnv), all_acquired env = false → syncpoint_init n env = none) :=
  fun h => absurd (h 3 barrier_init_fails (by decide)) (by decide)

/-- C9 (as amended) on an environment where only the exit barrier fails. -/
theorem init_fails_iff_malloc_fails_witness :
    barrier_init_fails.malloc_ok = true ∧
      ∃ c, syncpoint_init 3 barrier_init_fails = some c ∧ c.nb_workers = 3 ∧
        c.vars = ⟨0, 0, false⟩ :=
  ⟨rfl, (init_fails_iff_malloc_fails 3 barrier_init_fails).2 rfl⟩

end Sequential

end Syncpoint
